import Mathlib

/-!
# TM1637 display driver (`src/tm1637.cpp`)

A shallow embedding of the AVR TM1637 library: the display-buffer encoder, and
the two-wire bus engine below it.

* Machine integers are natural numbers; every place where the C++ code can
  wrap (`offset--`, `offset++`, `width--`, `offset += ...`, `++digits`, `++a`,
  `++i` on `uint8_t`, `++offset` on `uint32_t`) carries an explicit modulus.
* The encoder observes the bus engine at the level of its calls: the state
  carries the chronological log of the calls `send_cmd`, `send_data` and
  `_delay_ms` that the encoder makes.
* The bus engine itself is modelled in `Wire` on the two port registers, with
  the chronological trace of its register writes and delays; `Wire.send_cmd`
  and `Wire.send_data` are what one logged call does to the pins.
* The headers `tm1637.h` and `tm1637font.h` are not part of the sources; the
  constants, the glyph table and the character mapper they declare are
  parameters, collected in `Config`.
* The shift `1 << position` of `setByte` is on a promoted `int`: it is the
  power of two at positions below 16 and undefined in C++ from there on, where
  the model takes the value from the build (`Config.shl_wide`).
* A character is its byte code: `' '` is 32, `'0'..'9'` is 48..57,
  `'A'..'Z'` is 65..90 and `'a'..'z'` is 97..122.
-/

namespace TM1637

/-! ## Data model -/

/-- What the headers declare and the source only uses. -/
structure Config where
  /-- Number of digit positions of the module (`TM1637_DIGITS`). -/
  TM1637_DIGITS : Nat
  /-- Segment bit of the decimal point (`TM_DOT`). -/
  TM_DOT : Nat
  /-- Alignment flag selecting left alignment (`TM_LEFT`). -/
  TM_LEFT : Nat
  /-- Glyph table in program memory: `TM_DIGITS i` is `pgm_read_byte(&TM_DIGITS[i])`. -/
  TM_DIGITS : Nat → Nat
  /-- Character mapper for punctuation and space; 0 means no match. -/
  TM1637_map_char : Nat → Nat
  /-- What the build computes for the `int` expression `1 << n` at a shift count
  `n ≥ 16`, the width of `int` on the AVR, where C++ leaves the shift undefined. -/
  shl_wide : Nat → Nat

/-- One call into the bus engine, as seen from the encoder. -/
inductive BusOp where
  /-- The call `send_cmd(c)`. -/
  | cmd (c : Nat)
  /-- The call `send_data(addr, data)`. -/
  | data (addr data : Nat)
  /-- The call `_delay_ms(n)`. -/
  | delay_ms (n : Nat)
  deriving DecidableEq

/-- The driver object together with the log of its bus calls, oldest first. -/
structure State where
  /-- The member `_dotMask`. -/
  dotMask : Nat
  /-- Bus calls made so far. -/
  bus : List BusOp
  deriving DecidableEq

/-- Appends bus calls to the log and leaves the dot mask alone. -/
def emit (s : State) (ops : List BusOp) : State :=
  State.mk s.dotMask (s.bus ++ ops)

/-! ## Bus engine, call level -/

/-- The call `send_data(addr, data)`. -/
def send_data (s : State) (addr data : Nat) : State :=
  emit s [BusOp.data addr data]

/-- The call `send_cmd(cmd)`. -/
def send_cmd (s : State) (c : Nat) : State :=
  emit s [BusOp.cmd c]

/-- The call `_delay_ms(n)`. -/
def delay_ms (s : State) (n : Nat) : State :=
  emit s [BusOp.delay_ms n]

/-! ## Display buffer encoder -/

/-- Loop of `offset_digits`: `while (num >= 10) { num /= 10; ++digits; }`. -/
def offset_digits_loop : Nat → Nat → Nat → Nat
  | 0, _, digits => digits
  | fuel + 1, num, digits =>
    if num ≥ 10 then offset_digits_loop fuel (num / 10) ((digits + 1) % 256) else digits

/-- The function `offset_digits(num)`; the loop runs fewer than `num` times. -/
def offset_digits (num : Nat) : Nat :=
  offset_digits_loop num num 0

/-- Loop of `TM1637::clear`: `for (uint8_t a = 0; a != TM1637_DIGITS; ++a)`. -/
def clearLoop (cfg : Config) : Nat → Nat → State → State
  | 0, _, s => s
  | fuel + 1, a, s =>
    if a ≠ cfg.TM1637_DIGITS then clearLoop cfg fuel ((a + 1) % 256) (send_data s a 0x00) else s

/-- The method `TM1637::clear()`; `a` takes at most 256 values. -/
def clear (cfg : Config) (s : State) : State :=
  clearLoop cfg 256 0 s

/-- The `int` expression `1 << position` of `setByte`: the power of two where
the 16-bit `int` of the target defines the shift, and beyond that whatever the
build computes (`shl_wide`). -/
def shl1 (cfg : Config) (position : Nat) : Nat :=
  if position < 16 then 1 <<< position else cfg.shl_wide position

/-- The byte that `setByte` hands to `send_data`:
`b | (_dotMask & (1 << position) ? TM_DOT : 0)`. -/
def overlaid (cfg : Config) (dotMask position b : Nat) : Nat :=
  b ||| (if dotMask &&& shl1 cfg position ≠ 0 then cfg.TM_DOT else 0)

/-- The method `TM1637::setByte(position, b)`:
`send_data(position, b | (_dotMask & (1 << position) ? TM_DOT : 0))`. -/
def setByte (cfg : Config) (s : State) (position b : Nat) : State :=
  send_data s position (overlaid cfg s.dotMask position b)

/-- The method `TM1637::setDigit(position, digit)`. -/
def setDigit (cfg : Config) (s : State) (position digit : Nat) : State :=
  setByte cfg s position (cfg.TM_DIGITS (digit &&& 0xF))

/-- Loop of `TM1637::setNumber`: `while (number && offset != 0xFF)`. -/
def setNumberLoop (cfg : Config) : Nat → Nat → Nat → State → State
  | 0, _, _, s => s
  | fuel + 1, number, offset, s =>
    if number ≠ 0 ∧ offset ≠ 0xFF then
      setNumberLoop cfg fuel (number / 10) ((offset + 255) % 256)
        (setDigit cfg s offset (number % 10))
    else s

/-- The method `TM1637::setNumber(number, offset, align)`; the loop divides
`number` by 10 each round, so it runs at most `number` times. -/
def setNumber (cfg : Config) (s : State) (number offset align : Nat) : State :=
  setNumberLoop cfg number number
    (if align = cfg.TM_LEFT then (offset + offset_digits number) % 256 else offset) s

/-- First loop of `setNumberPad` and `setNumberHex`:
`while (number && width-- && offset != 0xFF) { setDigit(offset--, digit(number)); number = next(number); }`
with the short-circuit evaluation of the condition: `width--` is evaluated (and
wraps from 0 to 255) only when `number` is non-zero. Returns the values of
`width` and `offset` with which the second loop starts. -/
def digitsLoop (cfg : Config) (digit next : Nat → Nat) :
    Nat → Nat → Nat → Nat → State → Nat × Nat × State
  | 0, _, width, offset, s => (width, offset, s)
  | fuel + 1, number, width, offset, s =>
    if number = 0 then (width, offset, s)
    else if width = 0 then ((width + 255) % 256, offset, s)
    else if offset = 0xFF then ((width + 255) % 256, offset, s)
    else digitsLoop cfg digit next fuel (next number) ((width + 255) % 256)
      ((offset + 255) % 256) (setDigit cfg s offset (digit number))

/-- Second loop of `setNumberPad` and `setNumberHex`:
`while (width-- && offset != 0xFF) setByte(offset--, pad);`. -/
def padLoop (cfg : Config) (pad : Nat) : Nat → Nat → Nat → State → State
  | 0, _, _, s => s
  | fuel + 1, width, offset, s =>
    if width ≠ 0 ∧ offset ≠ 0xFF then
      padLoop cfg pad fuel ((width + 255) % 256) ((offset + 255) % 256) (setByte cfg s offset pad)
    else s

/-- The method `TM1637::setNumberPad(number, offset, width, pad)`. -/
def setNumberPad (cfg : Config) (s : State) (number offset width pad : Nat) : State :=
  let r := digitsLoop cfg (fun n => n % 10) (fun n => n / 10) number number width offset s
  padLoop cfg pad 256 r.1 r.2.1 r.2.2

/-- The method `TM1637::setNumberHex(number, offset, width, pad)`. -/
def setNumberHex (cfg : Config) (s : State) (number offset width pad : Nat) : State :=
  let r := digitsLoop cfg (fun n => n &&& 0x0F) (fun n => n >>> 4) number number width offset s
  padLoop cfg pad 256 r.1 r.2.1 r.2.2

/-- The method `TM1637::setChar(position, ch)`. -/
def setChar (cfg : Config) (s : State) (position ch : Nat) : State :=
  if cfg.TM1637_map_char ch ≠ 0 ∨ ch = 32 then
    setByte cfg s position (cfg.TM1637_map_char ch)
  else if 97 ≤ ch ∧ ch ≤ 122 then
    setByte cfg s position (cfg.TM_DIGITS (ch - 97 + 10))
  else if 65 ≤ ch ∧ ch ≤ 90 then
    setByte cfg s position (cfg.TM_DIGITS (ch - 65 + 10))
  else if 48 ≤ ch ∧ ch ≤ 57 then
    setByte cfg s position (cfg.TM_DIGITS (ch - 48))
  else s

/-- The method `TM1637::setChars(value, offset)`; `value` lists the bytes at the
pointer, and reading stops at the first zero byte or at the end of the list. -/
def setChars (cfg : Config) : State → List Nat → Nat → State
  | s, [], _ => s
  | s, c :: rest, offset =>
    if c ≠ 0 then setChars cfg (setChar cfg s offset c) rest ((offset + 1) % 256) else s

/-- One pass of the `for` loop of `TM1637::scrollChars`, from index `i`; the
flag tells whether the pass ended in `return`. A read past the listed bytes
yields the terminator. -/
def scrollFrame (cfg : Config) (value : List Nat) (offset : Nat) :
    Nat → Nat → State → State × Bool
  | 0, _, s => (s, false)
  | fuel + 1, i, s =>
    if i ≠ cfg.TM1637_DIGITS then
      if value.getD (offset + i + 1) 0 = 0 then
        (delay_ms (setChar cfg s i (value.getD (offset + i) 0)) 250, true)
      else
        scrollFrame cfg value offset fuel ((i + 1) % 256)
          (setChar cfg s i (value.getD (offset + i) 0))
    else (s, false)

/-- The `while(1)` loop of `TM1637::scrollChars`, run for at most `fuel` frames;
the flag tells whether the method has returned. -/
def scrollLoop (cfg : Config) (value : List Nat) : Nat → Nat → State → State × Bool
  | 0, _, s => (s, false)
  | fuel + 1, offset, s =>
    if (scrollFrame cfg value offset 256 0 s).2 then scrollFrame cfg value offset 256 0 s
    else scrollLoop cfg value fuel ((offset + 1) % 4294967296)
      (delay_ms (scrollFrame cfg value offset 256 0 s).1 250)

/-- The method `TM1637::scrollChars(value)` run for at most `fuel` frames;
`none` is the null pointer. -/
def scrollChars (cfg : Config) (fuel : Nat) (s : State) : Option (List Nat) → State × Bool
  | none => (s, true)
  | some value =>
    if value.getD 0 0 = 0 then (s, true) else scrollLoop cfg value fuel 0 s

/-- The method `TM1637::setDots(mask)`. -/
def setDots (s : State) (mask : Nat) : State :=
  State.mk mask s.bus

/-- The method `TM1637::setBrightness(brightness)`:
`send_cmd(TM_DISP_CTRL | TM_DISP_ENABLE | (brightness & TM_DISP_PWM_MASK))`. -/
def setBrightness (s : State) (brightness : Nat) : State :=
  send_cmd s (0x80 ||| 0x08 ||| (brightness &&& 0x07))

/-! ## Vocabulary of the specification -/

/-- Segment byte `b` with the decimal-point bit OR-ed in when bit `p` of the
dot mask `m` is set, and `b` itself otherwise. -/
def withDot (cfg : Config) (m p b : Nat) : Nat :=
  if m.testBit p then b ||| cfg.TM_DOT else b

/-- Number of digits of `v` in base `base`, with zero having none. -/
def numDigitsAux (base : Nat) : Nat → Nat → Nat
  | 0, _ => 0
  | fuel + 1, v => if v = 0 then 0 else numDigitsAux base fuel (v / base) + 1

/-- Number of decimal digits, `nd 0 = 0`. -/
def nd (v : Nat) : Nat := numDigitsAux 10 v v

/-- Number of hexadecimal nibbles, `nh 0 = 0`. -/
def nh (v : Nat) : Nat := numDigitsAux 16 v v

/-- A bus call respects the dot mask `m`: a data byte sent to a position `a`
in 0..7 whose mask bit is set has the decimal-point bit set. -/
def dotOk (cfg : Config) (m : Nat) : BusOp → Prop
  | BusOp.data a d => a < 8 → m.testBit a = true → d &&& cfg.TM_DOT = cfg.TM_DOT
  | BusOp.cmd _ => True
  | BusOp.delay_ms _ => True

instance dotOkDecidable (cfg : Config) (m : Nat) (op : BusOp) : Decidable (dotOk cfg m op) := by
  cases op <;> unfold dotOk <;> infer_instance

/-- The step from `s` to `t` only appends bus calls, keeps the dot mask, and
every appended call respects the dot mask of `s`. -/
def DotsApplied (cfg : Config) (s t : State) : Prop :=
  t = emit s (t.bus.drop s.bus.length) ∧
    ∀ op ∈ t.bus.drop s.bus.length, dotOk cfg s.dotMask op

instance dotsAppliedDecidable (cfg : Config) (s t : State) : Decidable (DotsApplied cfg s t) := by
  unfold DotsApplied; infer_instance

/-- A seven-segment font for 0-9 and A-Z, used for concrete runs. -/
def sampleGlyphs : List Nat :=
  [0x3F, 0x06, 0x5B, 0x4F, 0x66, 0x6D, 0x7D, 0x07, 0x7F, 0x6F,
   0x77, 0x7C, 0x39, 0x5E, 0x79, 0x71, 0x3D, 0x76, 0x30, 0x1E,
   0x75, 0x38, 0x15, 0x37, 0x5C, 0x73, 0x67, 0x50, 0x6D, 0x78,
   0x3E, 0x1C, 0x2A, 0x76, 0x6E, 0x5B]

/-- A four-digit module with the decimal point on bit 7, `TM_LEFT = 1`, a
mapper that knows minus, underscore and equals, and a build that takes the
count of a wide shift modulo 32. -/
def sampleCfg : Config where
  TM1637_DIGITS := 4
  TM_DOT := 0x80
  TM_LEFT := 1
  TM_DIGITS := fun i => sampleGlyphs.getD i 0
  TM1637_map_char := fun ch =>
    if ch = 45 then 0x40 else if ch = 95 then 0x08 else if ch = 61 then 0x48 else 0
  shl_wide := fun n => 1 <<< (n % 32)

/-- A driver with dot mask `m` and an empty log. -/
def fresh (m : Nat) : State := State.mk m []

/-- The module of `sampleCfg` with two digit positions. -/
def sampleCfg2 : Config where
  TM1637_DIGITS := 2
  TM_DOT := sampleCfg.TM_DOT
  TM_LEFT := sampleCfg.TM_LEFT
  TM_DIGITS := sampleCfg.TM_DIGITS
  TM1637_map_char := sampleCfg.TM1637_map_char
  shl_wide := sampleCfg.shl_wide

/-- Number of 250 ms pauses in a bus log. -/
def pauses (bus : List BusOp) : Nat :=
  bus.count (BusOp.delay_ms 250)

/-- A frame of the marquee in the words of the specification: the positions
`0..n-1` are filled in increasing order from `value[k + i]`, then comes the
250 ms pause. -/
def frameSpec (cfg : Config) (value : List Nat) (k n : Nat) (s : State) : State :=
  delay_ms ((List.range n).foldl (fun st i => setChar cfg st i (value.getD (k + i) 0)) s) 250

/-! ## Reads of the string made by `scrollChars` -/

/-- A read of the string: for rendering (`p[i]` passed to `setChar`) or for a
terminator test (`*value`, `p[i+1]`). -/
inductive Read where
  | render (idx : Nat)
  | test (idx : Nat)
  deriving DecidableEq

/-- The reads of one pass of the `for` loop of `scrollChars`, with the same
control flow as `scrollFrame`. -/
def scrollFrameReads (cfg : Config) (value : List Nat) (offset : Nat) :
    Nat → Nat → List Read × Bool
  | 0, _ => ([], false)
  | fuel + 1, i =>
    if i ≠ cfg.TM1637_DIGITS then
      if value.getD (offset + i + 1) 0 = 0 then
        ([Read.render (offset + i), Read.test (offset + i + 1)], true)
      else
        (Read.render (offset + i) :: Read.test (offset + i + 1) ::
          (scrollFrameReads cfg value offset fuel ((i + 1) % 256)).1,
          (scrollFrameReads cfg value offset fuel ((i + 1) % 256)).2)
    else ([], false)

/-- The reads of the `while(1)` loop of `scrollChars`, with the same control
flow as `scrollLoop`. -/
def scrollLoopReads (cfg : Config) (value : List Nat) : Nat → Nat → List Read × Bool
  | 0, _ => ([], false)
  | fuel + 1, offset =>
    if (scrollFrameReads cfg value offset 256 0).2 then scrollFrameReads cfg value offset 256 0
    else
      ((scrollFrameReads cfg value offset 256 0).1 ++
          (scrollLoopReads cfg value fuel ((offset + 1) % 4294967296)).1,
        (scrollLoopReads cfg value fuel ((offset + 1) % 4294967296)).2)

/-- The reads of `scrollChars(value)`: the null test reads nothing, `*value`
reads index 0. -/
def scrollCharsReads (cfg : Config) (fuel : Nat) : Option (List Nat) → List Read × Bool
  | none => ([], true)
  | some value =>
    if value.getD 0 0 = 0 then ([Read.test 0], true)
    else (Read.test 0 :: (scrollLoopReads cfg value fuel 0).1,
      (scrollLoopReads cfg value fuel 0).2)

/-- A read that stays within a string of length `L`: rendering reads an index
below `L`, a test reads an index up to `L`. -/
def readOk (L : Nat) : Read → Prop
  | Read.render idx => idx < L
  | Read.test idx => idx ≤ L

/-! ## Bus engine, pin level -/

namespace Wire

/-- Pin assignment declared in `tm1637.h`: the bit masks of the two lines in
the port registers `TM_DDR` and `TM_OUT`. -/
structure Pins where
  /-- Mask of the clock line (`TM_BIT_CLK`). -/
  TM_BIT_CLK : Nat
  /-- Mask of the data line (`TM_BIT_DAT`). -/
  TM_BIT_DAT : Nat

/-- What the bus engine does to the hardware, one entry per statement. -/
inductive PinEv where
  /-- A write of `v` to the direction register `TM_DDR`. -/
  | ddr (v : Nat)
  /-- A write of `v` to the output register `TM_OUT`. -/
  | out (v : Nat)
  /-- The call `_delay_us(n)`. -/
  | delay_us (n : Nat)
  deriving DecidableEq

/-- The two 8-bit port registers and the chronological trace of the engine. -/
structure Port where
  /-- Content of `TM_DDR`. -/
  ddr : Nat
  /-- Content of `TM_OUT`. -/
  out : Nat
  /-- Register writes and delays so far. -/
  trace : List PinEv
  deriving DecidableEq

/-- Assignment to `TM_OUT`. -/
def writeOut (p : Port) (v : Nat) : Port :=
  Port.mk p.ddr v (p.trace ++ [PinEv.out v])

/-- Assignment to `TM_DDR`. -/
def writeDdr (p : Port) (v : Nat) : Port :=
  Port.mk v p.out (p.trace ++ [PinEv.ddr v])

/-- The call `_delay_us(n)`. -/
def delay_us (p : Port) (n : Nat) : Port :=
  Port.mk p.ddr p.out (p.trace ++ [PinEv.delay_us n])

/-- The macro `TM_CLK_LOW()`: `TM_OUT &= ~TM_BIT_CLK`, on an 8-bit register. -/
def TM_CLK_LOW (hw : Pins) (p : Port) : Port :=
  writeOut p (p.out &&& (0xFF ^^^ hw.TM_BIT_CLK))

/-- The macro `TM_CLK_HIGH()`: `TM_OUT |= TM_BIT_CLK`. -/
def TM_CLK_HIGH (hw : Pins) (p : Port) : Port :=
  writeOut p (p.out ||| hw.TM_BIT_CLK)

/-- The macro `TM_DAT_LOW()`: `TM_OUT &= ~TM_BIT_DAT`, on an 8-bit register. -/
def TM_DAT_LOW (hw : Pins) (p : Port) : Port :=
  writeOut p (p.out &&& (0xFF ^^^ hw.TM_BIT_DAT))

/-- The macro `TM_DAT_HIGH()`: `TM_OUT |= TM_BIT_DAT`. -/
def TM_DAT_HIGH (hw : Pins) (p : Port) : Port :=
  writeOut p (p.out ||| hw.TM_BIT_DAT)

/-- The function `port_setup()`:
`TM_DDR |= TM_BIT_CLK | TM_BIT_DAT; TM_OUT |= TM_BIT_CLK;`. -/
def port_setup (hw : Pins) (p : Port) : Port :=
  writeOut (writeDdr p (p.ddr ||| (hw.TM_BIT_CLK ||| hw.TM_BIT_DAT)))
    (p.out ||| hw.TM_BIT_CLK)

/-- The function `start()`, with `DELAY_US = 1`. -/
def start (hw : Pins) (p : Port) : Port :=
  delay_us (TM_DAT_LOW hw (delay_us (TM_DAT_HIGH hw (TM_CLK_HIGH hw p)) 1)) 1

/-- The function `stop()`. -/
def stop (hw : Pins) (p : Port) : Port :=
  TM_DAT_HIGH hw (delay_us (TM_DAT_LOW hw (TM_CLK_HIGH hw (delay_us (TM_CLK_LOW hw p) 1))) 1)

/-- The `for (uint8_t i = 8; i; --i, b >>= 1)` loop of `send`, from counter `i`. -/
def sendLoop (hw : Pins) : Nat → Nat → Port → Port
  | 0, _, p => p
  | i + 1, b, p =>
    sendLoop hw i (b >>> 1)
      (delay_us (TM_CLK_HIGH hw (delay_us
        (if b &&& 1 ≠ 0 then TM_DAT_HIGH hw (TM_CLK_LOW hw p)
          else TM_DAT_LOW hw (TM_CLK_LOW hw p)) 1)) 1)

/-- The function `send(b)`: the eight data bits, then the acknowledge clock. -/
def send (hw : Pins) (p : Port) (b : Nat) : Port :=
  delay_us (TM_CLK_HIGH hw (delay_us (TM_DAT_LOW hw (TM_CLK_LOW hw (sendLoop hw 8 b p))) 1)) 1

/-- The function `send_cmd(cmd)`. -/
def send_cmd (hw : Pins) (p : Port) (cmd : Nat) : Port :=
  stop hw (send hw (start hw p) cmd)

/-- The function `send_data(addr, data)`, with `TM_DATA_CMD | TM_FIXED_ADDR =
0x40 | 0x04` and `TM_ADDR_CMD = 0xC0`. -/
def send_data (hw : Pins) (p : Port) (addr data : Nat) : Port :=
  delay_us (stop hw (send hw (send hw (start hw (send_cmd hw p (0x40 ||| 0x04)))
    (0xC0 ||| addr)) data)) 1

/-! ### Reading a trace as a two-wire waveform -/

/-- Levels (clock, data) of the two lines for a content of `TM_OUT`. -/
def level (hw : Pins) (v : Nat) : Bool × Bool :=
  (decide (v &&& hw.TM_BIT_CLK ≠ 0), decide (v &&& hw.TM_BIT_DAT ≠ 0))

/-- What a receiver on the bus sees. -/
inductive Sym where
  /-- Data falls while the clock stays high. -/
  | start
  /-- Data rises while the clock stays high. -/
  | stop
  /-- A rising clock edge, with the data level sampled at it. -/
  | bit (b : Bool)
  /-- Data changes in the same write as the clock. -/
  | glitch
  deriving DecidableEq

/-- The event, if any, of the step from levels `a` to levels `b`. A data change
while the clock is low and a falling clock edge are no events. -/
def classify (a b : Bool × Bool) : Option Sym :=
  if a.2 ≠ b.2 then
    if a.1 = true ∧ b.1 = true then (if a.2 = true then some Sym.start else some Sym.stop)
    else if a.1 = false ∧ b.1 = false then none
    else some Sym.glitch
  else if a.1 = false ∧ b.1 = true then some (Sym.bit b.2)
  else none

/-- The events of a trace, for lines that stand at levels `cur` when it begins. -/
def observe (hw : Pins) : Bool × Bool → List PinEv → List Sym
  | _, [] => []
  | cur, PinEv.out v :: rest =>
    (classify cur (level hw v)).toList ++ observe hw (level hw v) rest
  | cur, PinEv.ddr _ :: rest => observe hw cur rest
  | cur, PinEv.delay_us _ :: rest => observe hw cur rest

/-- The levels of the lines after a trace that began at levels `cur`. -/
def finalLevel (hw : Pins) : Bool × Bool → List PinEv → Bool × Bool
  | cur, [] => cur
  | _, PinEv.out v :: rest => finalLevel hw (level hw v) rest
  | cur, PinEv.ddr _ :: rest => finalLevel hw cur rest
  | cur, PinEv.delay_us _ :: rest => finalLevel hw cur rest

/-- The eight bits of a byte as clocked out least significant bit first. -/
def bitsLSB (b : Nat) : List Sym :=
  (List.range 8).map fun k => Sym.bit (b.testBit k)

/-- The byte read back from sampled bits, least significant first. -/
def byteOf : List Sym → Nat
  | [] => 0
  | Sym.bit b :: rest => (if b then 1 else 0) + 2 * byteOf rest
  | _ :: rest => 2 * byteOf rest

/-- Two distinct lines of one 8-bit port. -/
def Pins.wellFormed (hw : Pins) : Prop :=
  hw.TM_BIT_CLK ≠ 0 ∧ hw.TM_BIT_DAT ≠ 0 ∧ hw.TM_BIT_CLK < 256 ∧ hw.TM_BIT_DAT < 256 ∧
    hw.TM_BIT_CLK &&& hw.TM_BIT_DAT = 0

instance wellFormedDecidable (hw : Pins) : Decidable hw.wellFormed := by
  unfold Pins.wellFormed; infer_instance

/-- Clock on bit 0 and data on bit 1 of the port. -/
def samplePins : Pins where
  TM_BIT_CLK := 0x01
  TM_BIT_DAT := 0x02

/-- A port with the given register contents and an empty trace. -/
def powerOn (ddr out : Nat) : Port := Port.mk ddr out []

/-- The port `p`, reached from lines at levels `c0`, has so far shown the events
`syms` and now holds the lines at levels `cur`. -/
def Tracks (hw : Pins) (c0 : Bool × Bool) (p : Port) (syms : List Sym) (cur : Bool × Bool) :
    Prop :=
  level hw p.out = cur ∧ finalLevel hw c0 p.trace = cur ∧ observe hw c0 p.trace = syms

end Wire

/-! ## Basic facts -/

theorem emit_nil (s : State) : emit s [] = s := by
  cases s; simp [emit]

theorem emit_emit (s : State) (xs ys : List BusOp) :
    emit (emit s xs) ys = emit s (xs ++ ys) := by
  simp [emit, List.append_assoc]

theorem emit_dotMask (s : State) (xs : List BusOp) : (emit s xs).dotMask = s.dotMask := rfl

theorem emit_bus (s : State) (xs : List BusOp) : (emit s xs).bus = s.bus ++ xs := rfl

/-- The test `_dotMask & (1 << position)` reads bit `position` of the mask. -/
theorem land_shift_ne_zero (m p : Nat) : (m &&& (1 <<< p) ≠ 0) ↔ m.testBit p = true := by
  rw [Nat.one_shiftLeft]
  constructor
  · intro h
    by_contra hb
    apply h
    apply Nat.eq_of_testBit_eq
    intro i
    rw [Nat.testBit_and, Nat.testBit_two_pow, Nat.zero_testBit]
    by_cases hpi : p = i
    · subst hpi; simp [hb]
    · simp [hpi]
  · intro hb h
    have h1 : (m &&& 2 ^ p).testBit p = true := by
      rw [Nat.testBit_and, Nat.testBit_two_pow_self, hb]; rfl
    rw [h] at h1
    simp at h1

theorem setByte_eq (cfg : Config) (s : State) (p b : Nat) :
    setByte cfg s p b = emit s [BusOp.data p (overlaid cfg s.dotMask p b)] := rfl

/-- At a position below 16, where the shift of `setByte` is defined, the byte
sent is `b` with the decimal point OR-ed in exactly when bit `p` of the dot mask
is set. -/
theorem overlaid_low (cfg : Config) (m p b : Nat) (hp : p < 16) :
    overlaid cfg m p b = withDot cfg m p b := by
  unfold overlaid withDot shl1
  rw [if_pos hp]
  by_cases hb : m.testBit p = true
  · have h := (land_shift_ne_zero m p).2 hb
    simp [h, hb]
  · have h : ¬ (m &&& (1 <<< p) ≠ 0) := fun h => hb ((land_shift_ne_zero m p).1 h)
    simp only [h, if_false, hb]
    simp

theorem land_15_of_lt {d : Nat} (h : d < 16) : d &&& 0xF = d := by
  have h1 := Nat.and_pow_two_sub_one_eq_mod d 4
  norm_num at h1
  rw [h1]
  exact Nat.mod_eq_of_lt h

theorem setDigit_eq (cfg : Config) (s : State) (p d : Nat) :
    setDigit cfg s p d = emit s [BusOp.data p (overlaid cfg s.dotMask p (cfg.TM_DIGITS (d % 16)))] := by
  have h1 := Nat.and_pow_two_sub_one_eq_mod d 4
  norm_num at h1
  unfold setDigit
  rw [setByte_eq, h1]

/-! ## Counting digits -/

theorem numDigitsAux_fuel (b : Nat) (hb : 2 ≤ b) :
    ∀ (f1 f2 v : Nat), v ≤ f1 → v ≤ f2 → numDigitsAux b f1 v = numDigitsAux b f2 v := by
  intro f1
  induction f1 with
  | zero =>
    intro f2 v h1 _
    have hv : v = 0 := by omega
    subst hv
    cases f2 <;> simp [numDigitsAux]
  | succ f1 ih =>
    intro f2 v h1 h2
    by_cases hv : v = 0
    · subst hv
      cases f2 <;> simp [numDigitsAux]
    · cases f2 with
      | zero => omega
      | succ f2 =>
        have hlt : v / b < v := Nat.div_lt_self (Nat.pos_of_ne_zero hv) (by omega)
        simp only [numDigitsAux, hv, if_false]
        rw [ih f2 (v / b) (by omega) (by omega)]

theorem numDigitsAux_zero (b f : Nat) : numDigitsAux b f 0 = 0 := by
  cases f <;> simp [numDigitsAux]

theorem numDigitsAux_step (b : Nat) (hb : 2 ≤ b) (v : Nat) (hv : v ≠ 0) :
    numDigitsAux b v v = numDigitsAux b (v / b) (v / b) + 1 := by
  cases v with
  | zero => exact absurd rfl hv
  | succ n =>
    have hlt : (n + 1) / b < n + 1 := Nat.div_lt_self (by omega) (by omega)
    simp only [numDigitsAux, hv, if_false]
    rw [numDigitsAux_fuel b hb n ((n + 1) / b) ((n + 1) / b) (by omega) (Nat.le_refl _)]

theorem nd_zero : nd 0 = 0 := rfl

theorem nd_step (v : Nat) (hv : v ≠ 0) : nd v = nd (v / 10) + 1 :=
  numDigitsAux_step 10 (by decide) v hv

theorem nh_step (v : Nat) (hv : v ≠ 0) : nh v = nh (v / 16) + 1 :=
  numDigitsAux_step 16 (by decide) v hv

/-- The count agrees with the length of the standard digit list. -/
theorem numDigitsAux_eq_digits_length (b : Nat) (hb : 2 ≤ b) (v : Nat) :
    numDigitsAux b v v = (Nat.digits b v).length := by
  induction v using Nat.strong_induction_on with
  | _ v ih =>
    by_cases hv : v = 0
    · subst hv; simp [numDigitsAux]
    · have hlt : v / b < v := Nat.div_lt_self (Nat.pos_of_ne_zero hv) (by omega)
      rw [numDigitsAux_step b hb v hv, ih (v / b) hlt,
        Nat.digits_def' (by omega) (Nat.pos_of_ne_zero hv)]
      simp

theorem nd_eq_digits_length (v : Nat) : nd v = (Nat.digits 10 v).length :=
  numDigitsAux_eq_digits_length 10 (by decide) v

theorem nh_eq_digits_length (v : Nat) : nh v = (Nat.digits 16 v).length :=
  numDigitsAux_eq_digits_length 16 (by decide) v

theorem range_map_succ {α : Type} (f : Nat → α) (n : Nat) :
    (List.range (n + 1)).map f = f 0 :: (List.range n).map (fun k => f (k + 1)) := by
  rw [List.range_succ_eq_map, List.map_cons, List.map_map]
  rfl

theorem div_pow_succ (v b k : Nat) : v / b / b ^ k = v / b ^ (k + 1) := by
  rw [Nat.div_div_eq_div_mul, pow_succ']

/-! ## The loop of `setNumber` -/

theorem setNumberLoop_stop (cfg : Config) (fuel number : Nat) (s : State) :
    setNumberLoop cfg fuel number 255 s = s := by
  cases fuel <;> simp [setNumberLoop]

theorem setNumberLoop_eq (cfg : Config) :
    ∀ (fuel V O : Nat) (s : State), V ≤ fuel → O ≤ 254 →
      setNumberLoop cfg fuel V O s =
        emit s ((List.range (min (nd V) (O + 1))).map fun k =>
          BusOp.data (O - k) (overlaid cfg s.dotMask (O - k) (cfg.TM_DIGITS (V / 10 ^ k % 10)))) := by
  intro fuel
  induction fuel with
  | zero =>
    intro V O s hV _
    have hv : V = 0 := by omega
    subst hv
    simp [setNumberLoop, nd_zero, emit_nil]
  | succ fuel ih =>
    intro V O s hV hO
    by_cases hv : V = 0
    · subst hv
      simp [setNumberLoop, nd_zero, emit_nil]
    · have hlt : V / 10 < V := Nat.div_lt_self (Nat.pos_of_ne_zero hv) (by decide)
      have hO255 : O ≠ 255 := by omega
      have hmod : V % 10 % 16 = V % 10 := Nat.mod_eq_of_lt (by omega)
      simp only [setNumberLoop, hv, hO255, ne_eq, not_false_eq_true, and_self, if_true]
      rw [setDigit_eq, hmod, nd_step V hv]
      by_cases hO0 : O = 0
      · subst hO0
        have hm : min (nd (V / 10) + 1) (0 + 1) = 1 := by omega
        rw [hm]
        simp [setNumberLoop_stop, List.range_succ]
      · have hoff : (O + 255) % 256 = O - 1 := by omega
        have hm : min (nd (V / 10) + 1) (O + 1) = min (nd (V / 10)) (O - 1 + 1) + 1 := by omega
        rw [hoff, ih (V / 10) (O - 1) _ (by omega) (by omega), emit_emit, emit_dotMask, hm,
          range_map_succ]
        congr 1
        simp only [List.singleton_append, pow_zero, Nat.div_one, Nat.sub_zero, List.cons.injEq,
          true_and]
        apply List.map_congr_left
        intro k _
        rw [div_pow_succ]
        have hk : O - 1 - k = O - (k + 1) := by omega
        rw [hk]

theorem nd_pos (v : Nat) (hv : v ≠ 0) : 0 < nd v := by
  rw [nd_step v hv]; omega

theorem offset_digits_loop_eq :
    ∀ (fuel num digits : Nat), num ≤ fuel → num ≠ 0 → digits + (nd num - 1) < 256 →
      offset_digits_loop fuel num digits = digits + (nd num - 1) := by
  intro fuel
  induction fuel with
  | zero => intro num digits h1 h2; omega
  | succ fuel ih =>
    intro num digits h1 h2 h3
    have hstep := nd_step num h2
    by_cases h10 : num ≥ 10
    · have hq : num / 10 ≠ 0 := by omega
      have hpos := nd_pos (num / 10) hq
      have hmod : (digits + 1) % 256 = digits + 1 := by omega
      simp only [offset_digits_loop, h10, if_true]
      rw [hmod, ih (num / 10) (digits + 1) (by omega) hq (by omega)]
      omega
    · have hq : num / 10 = 0 := by omega
      rw [hq, nd_zero] at hstep
      simp only [offset_digits_loop, h10, if_false]
      omega

theorem offset_digits_eq (v : Nat) (hv : v ≠ 0) (hn : nd v ≤ 256) :
    offset_digits v = nd v - 1 := by
  have hpos := nd_pos v hv
  unfold offset_digits
  rw [offset_digits_loop_eq v v 0 (Nat.le_refl _) hv (by omega)]
  omega

/-! ## The two loops of the padded variants -/

theorem padLoop_eq (cfg : Config) (pad : Nat) :
    ∀ (fuel w o : Nat) (s : State), w ≤ fuel → (w = 0 ∨ (w ≤ o + 1 ∧ o ≤ 254)) →
      padLoop cfg pad fuel w o s =
        emit s ((List.range w).map fun k =>
          BusOp.data (o - k) (overlaid cfg s.dotMask (o - k) pad)) := by
  intro fuel
  induction fuel with
  | zero =>
    intro w o s hw _
    have h0 : w = 0 := by omega
    subst h0
    simp [padLoop, emit_nil]
  | succ fuel ih =>
    intro w o s hw hwo
    by_cases h0 : w = 0
    · subst h0
      simp [padLoop, emit_nil]
    · have hso : w ≤ o + 1 ∧ o ≤ 254 := by
        rcases hwo with h | h
        · exact absurd h h0
        · exact h
      have ho : o ≠ 255 := by omega
      have hw1 : (w + 255) % 256 = w - 1 := by omega
      have hw2 : w = (w - 1) + 1 := by omega
      simp only [padLoop, h0, ho, ne_eq, not_false_eq_true, and_self, if_true]
      rw [hw1, setByte_eq, ih (w - 1) ((o + 255) % 256) _ (by omega) (by omega), emit_emit,
        emit_dotMask]
      congr 1
      conv_rhs => rw [hw2, range_map_succ]
      simp only [List.singleton_append, Nat.sub_zero, List.cons.injEq, true_and]
      apply List.map_congr_left
      intro k hk
      have hk1 : k < w - 1 := List.mem_range.mp hk
      have hk2 : (o + 255) % 256 - k = o - (k + 1) := by omega
      rw [hk2]

theorem digitsLoop_eq (cfg : Config) (b : Nat) (hb2 : 2 ≤ b) (hb16 : b ≤ 16) :
    ∀ (fuel V w o : Nat) (s : State), V ≤ fuel → numDigitsAux b V V ≤ w → w ≤ 255 → o ≤ 255 →
      (w = 0 ∨ (w ≤ o + 1 ∧ o ≤ 254)) →
      digitsLoop cfg (fun n => n % b) (fun n => n / b) fuel V w o s =
        (w - numDigitsAux b V V, (o + 256 - numDigitsAux b V V) % 256,
          emit s ((List.range (numDigitsAux b V V)).map fun k =>
            BusOp.data (o - k) (overlaid cfg s.dotMask (o - k) (cfg.TM_DIGITS (V / b ^ k % b))))) := by
  intro fuel
  induction fuel with
  | zero =>
    intro V w o s hV _ _ ho _
    have hv : V = 0 := by omega
    subst hv
    have hmod : (o + 256) % 256 = o := by omega
    simp [digitsLoop, numDigitsAux, emit_nil, hmod]
  | succ fuel ih =>
    intro V w o s hV hn hw ho hwo
    by_cases hv : V = 0
    · subst hv
      have hmod : (o + 256) % 256 = o := by omega
      simp [digitsLoop, numDigitsAux, emit_nil, hmod]
    · have hstep := numDigitsAux_step b hb2 V hv
      have hlt : V / b < V := Nat.div_lt_self (Nat.pos_of_ne_zero hv) (by omega)
      have hw0 : w ≠ 0 := by omega
      have hso : w ≤ o + 1 ∧ o ≤ 254 := by
        rcases hwo with h | h
        · exact absurd h hw0
        · exact h
      have ho255 : o ≠ 255 := by omega
      have hw1 : (w + 255) % 256 = w - 1 := by omega
      have hdig : V % b % 16 = V % b :=
        Nat.mod_eq_of_lt (Nat.lt_of_lt_of_le (Nat.mod_lt V (by omega)) hb16)
      simp only [digitsLoop, hv, hw0, ho255, if_false]
      rw [hw1, setDigit_eq, hdig,
        ih (V / b) (w - 1) ((o + 255) % 256) _ (by omega) (by omega) (by omega) (by omega)
          (by omega),
        emit_emit, emit_dotMask, hstep]
      have e1 : w - 1 - numDigitsAux b (V / b) (V / b) = w - (numDigitsAux b (V / b) (V / b) + 1) := by
        omega
      have e2 : ((o + 255) % 256 + 256 - numDigitsAux b (V / b) (V / b)) % 256 =
          (o + 256 - (numDigitsAux b (V / b) (V / b) + 1)) % 256 := by omega
      rw [e1, e2, range_map_succ]
      congr 2
      congr 1
      simp only [List.singleton_append, pow_zero, Nat.div_one, Nat.sub_zero, List.cons.injEq,
        true_and]
      apply List.map_congr_left
      intro k hk
      have hk1 : k < numDigitsAux b (V / b) (V / b) := List.mem_range.mp hk
      have hk2 : (o + 255) % 256 - k = o - (k + 1) := by omega
      rw [hk2, div_pow_succ]

theorem hex_digit_fun : (fun n : Nat => n &&& 0x0F) = fun n => n % 16 := by
  funext n
  have h := Nat.and_pow_two_sub_one_eq_mod n 4
  norm_num at h
  exact h

theorem hex_next_fun : (fun n : Nat => n >>> 4) = fun n => n / 16 := by
  funext n
  rw [Nat.shiftRight_eq_div_pow]

theorem hex_nibble (V k : Nat) : (V >>> (4 * k)) &&& 0xF = V / 16 ^ k % 16 := by
  have h := Nat.and_pow_two_sub_one_eq_mod (V >>> (4 * k)) 4
  norm_num at h
  rw [h, Nat.shiftRight_eq_div_pow, pow_mul]
  norm_num

/-- Both padded variants, for a value with at most `w` digits in base `b`. -/
theorem padded_eq (cfg : Config) (b : Nat) (hb2 : 2 ≤ b) (hb16 : b ≤ 16) (s : State)
    (V O W P : Nat) (hn : numDigitsAux b V V ≤ W) (hWO : W ≤ O + 1) (hO : O + 1 ≤ 255) :
    padLoop cfg P 256
        (digitsLoop cfg (fun n => n % b) (fun n => n / b) V V W O s).1
        (digitsLoop cfg (fun n => n % b) (fun n => n / b) V V W O s).2.1
        (digitsLoop cfg (fun n => n % b) (fun n => n / b) V V W O s).2.2 =
      emit s
        ((List.range (numDigitsAux b V V)).map (fun k =>
            BusOp.data (O - k) (overlaid cfg s.dotMask (O - k) (cfg.TM_DIGITS (V / b ^ k % b)))) ++
          (List.range (W - numDigitsAux b V V)).map (fun k =>
            BusOp.data (O - numDigitsAux b V V - k)
              (overlaid cfg s.dotMask (O - numDigitsAux b V V - k) P))) := by
  rw [digitsLoop_eq cfg b hb2 hb16 V V W O s (Nat.le_refl _) hn (by omega) (by omega) (by omega)]
  simp only
  rw [padLoop_eq cfg P 256 _ _ _ (by omega) (by omega), emit_emit, emit_dotMask]
  congr 2
  apply List.map_congr_left
  intro k hk
  have hk1 : k < W - numDigitsAux b V V := List.mem_range.mp hk
  have hk2 : (O + 256 - numDigitsAux b V V) % 256 - k = O - numDigitsAux b V V - k := by omega
  rw [hk2]

/-- Within its field: a value with at most `W` decimal digits is written by
`setNumberPad` to positions `O` downwards, followed by the pad bytes. -/
theorem setNumberPad_within (cfg : Config) (s : State) (V O W P : Nat)
    (hn : nd V ≤ W) (hWO : W ≤ O + 1) (hO : O + 1 ≤ 255) :
    setNumberPad cfg s V O W P =
      emit s
        ((List.range (nd V)).map (fun k =>
            BusOp.data (O - k) (overlaid cfg s.dotMask (O - k) (cfg.TM_DIGITS (V / 10 ^ k % 10)))) ++
          (List.range (W - nd V)).map (fun k =>
            BusOp.data (O - nd V - k) (overlaid cfg s.dotMask (O - nd V - k) P))) :=
  padded_eq cfg 10 (by decide) (by decide) s V O W P hn hWO hO

theorem reverse_map_range {α : Type} (f : Nat → α) (n : Nat) :
    ((List.range n).map f).reverse = (List.range n).map fun k => f (n - 1 - k) := by
  rw [← List.map_reverse]
  conv_lhs => rw [List.range_eq_range', List.reverse_range', List.map_map]
  apply List.map_congr_left
  intro k _
  simp

/-! ## The fuel of the loops never runs out -/

theorem setNumberLoop_fuel (cfg : Config) :
    ∀ (f1 f2 V O : Nat) (s : State), V ≤ f1 → V ≤ f2 →
      setNumberLoop cfg f1 V O s = setNumberLoop cfg f2 V O s := by
  intro f1
  induction f1 with
  | zero =>
    intro f2 V O s h1 _
    have hv : V = 0 := by omega
    subst hv
    cases f2 <;> simp [setNumberLoop]
  | succ f1 ih =>
    intro f2 V O s h1 h2
    by_cases hv : V = 0
    · subst hv
      cases f2 <;> simp [setNumberLoop]
    · cases f2 with
      | zero => omega
      | succ f2 =>
        have hlt : V / 10 < V := Nat.div_lt_self (Nat.pos_of_ne_zero hv) (by decide)
        simp only [setNumberLoop]
        rw [ih f2 (V / 10) _ _ (by omega) (by omega)]

theorem padLoop_fuel (cfg : Config) (pad : Nat) :
    ∀ (f1 f2 w o : Nat) (s : State), w ≤ f1 → w ≤ f2 → w ≤ 255 →
      padLoop cfg pad f1 w o s = padLoop cfg pad f2 w o s := by
  intro f1
  induction f1 with
  | zero =>
    intro f2 w o s h1 _ _
    have hw : w = 0 := by omega
    subst hw
    cases f2 <;> simp [padLoop]
  | succ f1 ih =>
    intro f2 w o s h1 h2 h3
    by_cases hw : w = 0
    · subst hw
      cases f2 <;> simp [padLoop]
    · cases f2 with
      | zero => omega
      | succ f2 =>
        have hw1 : (w + 255) % 256 = w - 1 := by omega
        simp only [padLoop, hw1]
        rw [ih f2 (w - 1) _ _ (by omega) (by omega) (by omega)]

theorem digitsLoop_fuel (cfg : Config) (digit next : Nat → Nat)
    (hnext : ∀ n, n ≠ 0 → next n < n) :
    ∀ (f1 f2 V w o : Nat) (s : State), V ≤ f1 → V ≤ f2 →
      digitsLoop cfg digit next f1 V w o s = digitsLoop cfg digit next f2 V w o s := by
  intro f1
  induction f1 with
  | zero =>
    intro f2 V w o s h1 _
    have hv : V = 0 := by omega
    subst hv
    cases f2 <;> simp [digitsLoop]
  | succ f1 ih =>
    intro f2 V w o s h1 h2
    by_cases hv : V = 0
    · subst hv
      cases f2 <;> simp [digitsLoop]
    · cases f2 with
      | zero => omega
      | succ f2 =>
        have hlt := hnext V hv
        simp only [digitsLoop]
        rw [ih f2 (next V) _ _ _ (by omega) (by omega)]

/-! ## The dot overlay along every write path -/

theorem dotsApplied_emit (cfg : Config) (s : State) (ops : List BusOp)
    (h : ∀ op ∈ ops, dotOk cfg s.dotMask op) : DotsApplied cfg s (emit s ops) := by
  have hd : (emit s ops).bus.drop s.bus.length = ops := by
    simp [emit]
  unfold DotsApplied
  rw [hd]
  exact ⟨rfl, h⟩

theorem dotsApplied_refl (cfg : Config) (s : State) : DotsApplied cfg s s := by
  have h := dotsApplied_emit cfg s [] (by simp)
  rwa [emit_nil] at h

theorem dotsApplied_trans (cfg : Config) {s t u : State}
    (h1 : DotsApplied cfg s t) (h2 : DotsApplied cfg t u) : DotsApplied cfg s u := by
  obtain ⟨e1, d1⟩ := h1
  obtain ⟨e2, d2⟩ := h2
  generalize u.bus.drop t.bus.length = o2 at e2 d2
  generalize t.bus.drop s.bus.length = o1 at e1 d1
  subst e1
  subst e2
  rw [emit_emit]
  apply dotsApplied_emit
  intro op hop
  rcases List.mem_append.mp hop with h | h
  · exact d1 op h
  · exact d2 op h

theorem lor_land_self (b x : Nat) : (b ||| x) &&& x = x := by
  apply Nat.eq_of_testBit_eq
  intro i
  rw [Nat.testBit_and, Nat.testBit_or]
  cases b.testBit i <;> cases x.testBit i <;> rfl

theorem setByte_dots (cfg : Config) (s : State) (p b : Nat) :
    DotsApplied cfg s (setByte cfg s p b) := by
  rw [setByte_eq]
  apply dotsApplied_emit
  intro op hop
  rw [List.mem_singleton] at hop
  subst hop
  intro ha hbit
  rw [overlaid_low cfg s.dotMask p b (by omega)]
  simp only [withDot, hbit, if_true]
  exact lor_land_self b cfg.TM_DOT

theorem setDigit_dots (cfg : Config) (s : State) (p d : Nat) :
    DotsApplied cfg s (setDigit cfg s p d) :=
  setByte_dots cfg s p _

theorem delay_ms_dots (cfg : Config) (s : State) (n : Nat) :
    DotsApplied cfg s (delay_ms s n) := by
  apply dotsApplied_emit
  intro op hop
  rw [List.mem_singleton] at hop
  subst hop
  trivial

theorem setChar_dots (cfg : Config) (s : State) (p ch : Nat) :
    DotsApplied cfg s (setChar cfg s p ch) := by
  unfold setChar
  split
  · exact setByte_dots cfg s p _
  · split
    · exact setByte_dots cfg s p _
    · split
      · exact setByte_dots cfg s p _
      · split
        · exact setByte_dots cfg s p _
        · exact dotsApplied_refl cfg s

theorem setNumberLoop_dots (cfg : Config) :
    ∀ (fuel n o : Nat) (s : State), DotsApplied cfg s (setNumberLoop cfg fuel n o s) := by
  intro fuel
  induction fuel with
  | zero => intro n o s; exact dotsApplied_refl cfg s
  | succ fuel ih =>
    intro n o s
    unfold setNumberLoop
    split
    · exact dotsApplied_trans cfg (setDigit_dots cfg s o _) (ih _ _ _)
    · exact dotsApplied_refl cfg s

theorem digitsLoop_dots (cfg : Config) (digit next : Nat → Nat) :
    ∀ (fuel n w o : Nat) (s : State),
      DotsApplied cfg s (digitsLoop cfg digit next fuel n w o s).2.2 := by
  intro fuel
  induction fuel with
  | zero => intro n w o s; exact dotsApplied_refl cfg s
  | succ fuel ih =>
    intro n w o s
    unfold digitsLoop
    split
    · exact dotsApplied_refl cfg s
    · split
      · exact dotsApplied_refl cfg s
      · split
        · exact dotsApplied_refl cfg s
        · exact dotsApplied_trans cfg (setDigit_dots cfg s o _) (ih _ _ _ _)

theorem padLoop_dots (cfg : Config) (pad : Nat) :
    ∀ (fuel w o : Nat) (s : State), DotsApplied cfg s (padLoop cfg pad fuel w o s) := by
  intro fuel
  induction fuel with
  | zero => intro w o s; exact dotsApplied_refl cfg s
  | succ fuel ih =>
    intro w o s
    unfold padLoop
    split
    · exact dotsApplied_trans cfg (setByte_dots cfg s o pad) (ih _ _ _)
    · exact dotsApplied_refl cfg s

theorem setChars_dots (cfg : Config) :
    ∀ (value : List Nat) (s : State) (o : Nat), DotsApplied cfg s (setChars cfg s value o) := by
  intro value
  induction value with
  | nil => intro s o; exact dotsApplied_refl cfg s
  | cons c rest ih =>
    intro s o
    unfold setChars
    split
    · exact dotsApplied_trans cfg (setChar_dots cfg s o c) (ih _ _)
    · exact dotsApplied_refl cfg s

theorem scrollFrame_dots (cfg : Config) (value : List Nat) (offset : Nat) :
    ∀ (fuel i : Nat) (s : State),
      DotsApplied cfg s (scrollFrame cfg value offset fuel i s).1 := by
  intro fuel
  induction fuel with
  | zero => intro i s; exact dotsApplied_refl cfg s
  | succ fuel ih =>
    intro i s
    unfold scrollFrame
    split
    · split
      · exact dotsApplied_trans cfg (setChar_dots cfg s i _) (delay_ms_dots cfg _ 250)
      · exact dotsApplied_trans cfg (setChar_dots cfg s i _) (ih _ _)
    · exact dotsApplied_refl cfg s

theorem scrollLoop_dots (cfg : Config) (value : List Nat) :
    ∀ (fuel offset : Nat) (s : State),
      DotsApplied cfg s (scrollLoop cfg value fuel offset s).1 := by
  intro fuel
  induction fuel with
  | zero => intro offset s; exact dotsApplied_refl cfg s
  | succ fuel ih =>
    intro offset s
    unfold scrollLoop
    split
    · exact scrollFrame_dots cfg value offset 256 0 s
    · exact dotsApplied_trans cfg
        (dotsApplied_trans cfg (scrollFrame_dots cfg value offset 256 0 s)
          (delay_ms_dots cfg _ 250))
        (ih _ _)

theorem clearLoop_eq (cfg : Config) (hD : cfg.TM1637_DIGITS ≤ 255) :
    ∀ (fuel a : Nat) (s : State), a ≤ cfg.TM1637_DIGITS → cfg.TM1637_DIGITS - a ≤ fuel →
      clearLoop cfg fuel a s =
        emit s ((List.range (cfg.TM1637_DIGITS - a)).map fun k => BusOp.data (a + k) 0) := by
  intro fuel
  induction fuel with
  | zero =>
    intro a s h1 h2
    have h0 : cfg.TM1637_DIGITS - a = 0 := by omega
    simp [clearLoop, h0, emit_nil]
  | succ fuel ih =>
    intro a s h1 h2
    by_cases ha : a = cfg.TM1637_DIGITS
    · have h0 : cfg.TM1637_DIGITS - a = 0 := by omega
      simp [clearLoop, ha, emit_nil]
    · have hmod : (a + 1) % 256 = a + 1 := by omega
      have hstep : cfg.TM1637_DIGITS - a = (cfg.TM1637_DIGITS - (a + 1)) + 1 := by omega
      simp only [clearLoop, ha, ne_eq, not_false_eq_true, if_true]
      rw [hmod, ih (a + 1) _ (by omega) (by omega), send_data, emit_emit, hstep, range_map_succ]
      congr 1
      simp only [List.singleton_append, Nat.add_zero, List.cons.injEq, true_and]
      apply List.map_congr_left
      intro k _
      have hk : a + 1 + k = a + (k + 1) := by omega
      rw [hk]

/-! ## The claims -/

/-- C1: for every dot mask `m`, position `p` in 0..7 and digit value `d`,
`setDigit(p, d)` makes exactly one `send_data` call, to address `p`, whose data
byte is `TM_DIGITS[d & 0xF]` OR-ed with `TM_DOT` when bit `p` of `m` is set and
the bare glyph when it is clear; the dot mask stays `m`. -/
theorem setDigit_one_transmission (cfg : Config) (s : State) (m p d : Nat) (_hp : p < 8) :
    setDigit cfg (setDots s m) p d =
      State.mk m (s.bus ++ [BusOp.data p
        (if m.testBit p then cfg.TM_DIGITS (d &&& 0xF) ||| cfg.TM_DOT
          else cfg.TM_DIGITS (d &&& 0xF))]) := by
  unfold setDigit
  rw [setByte_eq, overlaid_low cfg _ p _ (by omega)]
  simp only [setDots, emit, withDot]

theorem setDigit_one_transmission_witness :
    3 < 8 ∧
      setDigit sampleCfg (setDots (fresh 0) 8) 3 7 =
        State.mk 8 ((fresh 0).bus ++ [BusOp.data 3
          (if Nat.testBit 8 3 then sampleCfg.TM_DIGITS (7 &&& 0xF) ||| sampleCfg.TM_DOT
            else sampleCfg.TM_DIGITS (7 &&& 0xF))]) :=
  ⟨by decide, setDigit_one_transmission sampleCfg (fresh 0) 8 3 7 (by decide)⟩

/-- C2: for every value `V` and offset `O` in 0..254, right-aligned
`setNumber(V, O)` makes exactly `min (nd V) (O + 1)` `send_data` calls, the
`k`-th to position `O - k` with the glyph of `(V / 10^k) mod 10`, sent as
`setByte` sends it (`overlaid`: the glyph OR-ed with `TM_DOT` when the dot test
of `setByte` succeeds, which at positions below 16 means that bit `O - k` of the
dot mask is set, see `overlaid_low`); with `V = 0` it makes none. -/
theorem setNumber_right_aligned (cfg : Config) (s : State) (V O align : Nat)
    (hO : O ≤ 254) (ha : align ≠ cfg.TM_LEFT) :
    setNumber cfg s V O align =
        emit s ((List.range (min (nd V) (O + 1))).map fun k =>
          BusOp.data (O - k) (overlaid cfg s.dotMask (O - k) (cfg.TM_DIGITS (V / 10 ^ k % 10)))) ∧
      setNumber cfg s 0 O align = s := by
  constructor
  · unfold setNumber
    rw [if_neg ha]
    exact setNumberLoop_eq cfg V V O s (Nat.le_refl _) hO
  · unfold setNumber
    rfl

theorem setNumber_right_aligned_witness :
    (1 ≤ 254 ∧ 32 ≤ 254 ∧ (0 : Nat) ≠ sampleCfg.TM_LEFT) ∧
      setNumber sampleCfg (fresh 0) 5234 1 0 =
        emit (fresh 0) [BusOp.data 1 0x66, BusOp.data 0 0x4F] ∧
      setNumber sampleCfg (fresh 1) 7 32 0 = emit (fresh 1) [BusOp.data 32 0x87] :=
  ⟨⟨by decide, by decide, by decide⟩,
    (setNumber_right_aligned sampleCfg (fresh 0) 5234 1 0 (by decide) (by decide)).1.trans
      (by decide),
    (setNumber_right_aligned sampleCfg (fresh 1) 7 32 0 (by decide) (by decide)).1.trans
      (by decide)⟩

/-- C3: for every value `V > 0` with `nd V` decimal digits and every offset `O`
with `O + nd V - 1 ≤ 254`, left-aligned `setNumber(V, O, TM_LEFT)` transmits all
`nd V` digits, the `j`-th most significant one to position `O + j`; the calls
are made least significant digit first, that is in decreasing `j`, and each
glyph is sent as `setByte` sends it (`overlaid`, which at positions below 16 is
the glyph with `TM_DOT` OR-ed in exactly when the mask bit of the position is
set, see `overlaid_low`). -/
theorem setNumber_left_aligned (cfg : Config) (s : State) (V O : Nat)
    (hV : 0 < V) (hO : O + nd V - 1 ≤ 254) :
    setNumber cfg s V O cfg.TM_LEFT =
      emit s ((List.range (nd V)).map fun j =>
        BusOp.data (O + j)
          (overlaid cfg s.dotMask (O + j) (cfg.TM_DIGITS (V / 10 ^ (nd V - 1 - j) % 10)))).reverse := by
  have hv : V ≠ 0 := by omega
  have hpos := nd_pos V hv
  unfold setNumber
  rw [if_pos rfl, offset_digits_eq V hv (by omega)]
  have hmod : (O + (nd V - 1)) % 256 = O + (nd V - 1) := by omega
  have hmin : min (nd V) (O + (nd V - 1) + 1) = nd V := by omega
  rw [hmod, setNumberLoop_eq cfg V V _ s (Nat.le_refl _) (by omega), hmin, reverse_map_range]
  congr 1
  apply List.map_congr_left
  intro k hk
  have hk1 : k < nd V := List.mem_range.mp hk
  have e1 : O + (nd V - 1) - k = O + (nd V - 1 - k) := by omega
  have e2 : nd V - 1 - (nd V - 1 - k) = k := by omega
  rw [e1, e2]

theorem setNumber_left_aligned_witness :
    (0 < 234 ∧ 0 + nd 234 - 1 ≤ 254 ∧ 0 < 71 ∧ 31 + nd 71 - 1 ≤ 254) ∧
      setNumber sampleCfg (fresh 0) 234 0 sampleCfg.TM_LEFT =
        emit (fresh 0) [BusOp.data 2 0x66, BusOp.data 1 0x4F, BusOp.data 0 0x5B] ∧
      setNumber sampleCfg (fresh 1) 71 31 sampleCfg.TM_LEFT =
        emit (fresh 1) [BusOp.data 32 0x86, BusOp.data 31 0x07] :=
  ⟨⟨by decide, by decide, by decide, by decide⟩,
    (setNumber_left_aligned sampleCfg (fresh 0) 234 0 (by decide) (by decide)).trans (by decide),
    (setNumber_left_aligned sampleCfg (fresh 1) 71 31 (by decide) (by decide)).trans
      (by decide)⟩

/-- C4: at value 123, offset 3, width 2, pad 0x08 the method `setNumberPad`
writes the two low digits to positions 3 and 2 and then, `width--` having
wrapped from 0 to 255 in the first loop, pad bytes to positions 1 and 0: four
positions for a field of width two. -/
theorem setNumberPad_overruns_width :
    setNumberPad sampleCfg (fresh 0) 123 3 2 0x08 =
      emit (fresh 0)
        [BusOp.data 3 0x4F, BusOp.data 2 0x5B, BusOp.data 1 0x08, BusOp.data 0 0x08] := by
  decide

/-- C6: for every value `V` with `nh V` hexadecimal nibbles, `nh V ≤ W`, and
every offset `O` with `W ≤ O + 1 ≤ 255`, `setNumberHex(V, O, W, P)` makes exactly
`W` calls: the glyph of nibble `(V >> 4k) & 0xF` to position `O - k` for
`k < nh V`, then the pad byte `P` to positions `O - nh V` down to `O - W + 1`,
each byte sent as `setByte` sends it (`overlaid`: the byte with the dot overlay
of its position, which below position 16 is `TM_DOT` exactly when the mask bit
is set, see `overlaid_low`). -/
theorem setNumberHex_within (cfg : Config) (s : State) (V O W P : Nat)
    (hn : nh V ≤ W) (hWO : W ≤ O + 1) (hO : O + 1 ≤ 255) :
    setNumberHex cfg s V O W P =
        emit s
          ((List.range (nh V)).map (fun k =>
              BusOp.data (O - k)
                (overlaid cfg s.dotMask (O - k) (cfg.TM_DIGITS ((V >>> (4 * k)) &&& 0xF)))) ++
            (List.range (W - nh V)).map (fun k =>
              BusOp.data (O - nh V - k) (overlaid cfg s.dotMask (O - nh V - k) P))) ∧
      ((List.range (nh V)).map (fun k =>
              BusOp.data (O - k)
                (overlaid cfg s.dotMask (O - k) (cfg.TM_DIGITS ((V >>> (4 * k)) &&& 0xF)))) ++
            (List.range (W - nh V)).map (fun k =>
              BusOp.data (O - nh V - k) (overlaid cfg s.dotMask (O - nh V - k) P))).length = W := by
  constructor
  · unfold setNumberHex
    simp only [hex_digit_fun, hex_next_fun, hex_nibble]
    exact padded_eq cfg 16 (by decide) (by decide) s V O W P hn hWO hO
  · simp only [List.length_append, List.length_map, List.length_range]
    omega

theorem setNumberHex_within_witness :
    (nh 0xAB ≤ 4 ∧ 4 ≤ 3 + 1 ∧ 3 + 1 ≤ 255 ∧ nh 0xA ≤ 2 ∧ 2 ≤ 32 + 1 ∧ 32 + 1 ≤ 255) ∧
      setNumberHex sampleCfg (fresh 0) 0xAB 3 4 0x08 =
        emit (fresh 0)
          [BusOp.data 3 0x7C, BusOp.data 2 0x77, BusOp.data 1 0x08, BusOp.data 0 0x08] ∧
      setNumberHex sampleCfg (fresh 1) 0xA 32 2 0x08 =
        emit (fresh 1) [BusOp.data 32 0xF7, BusOp.data 31 0x08] :=
  ⟨⟨by decide, by decide, by decide, by decide, by decide, by decide⟩,
    (setNumberHex_within sampleCfg (fresh 0) 0xAB 3 4 0x08 (by decide) (by decide)
      (by decide)).1.trans (by decide),
    (setNumberHex_within sampleCfg (fresh 1) 0xA 32 2 0x08 (by decide) (by decide)
      (by decide)).1.trans (by decide)⟩

/-- C7 (as stated, refuted): with bit 0 of the dot mask set, `clear()` sends the
byte 0x00 to position 0, without the decimal-point bit. -/
theorem clear_ignores_dot_mask :
    clear sampleCfg (fresh 1) =
        emit (fresh 1) [BusOp.data 0 0, BusOp.data 1 0, BusOp.data 2 0, BusOp.data 3 0] ∧
      Nat.testBit 1 0 = true ∧
      0 &&& sampleCfg.TM_DOT ≠ sampleCfg.TM_DOT ∧
      ¬ DotsApplied sampleCfg (fresh 1) (clear sampleCfg (fresh 1)) := by
  decide

/-- C7 (amended): for every dot mask and every public display operation other
than `clear` (`setByte`, `setDigit`, `setNumber`, `setNumberPad`,
`setNumberHex`, `setChar`, `setChars`, `scrollChars` after any number of
frames), every data byte the operation sends to a position `p` in 0..7 has the
bit `TM_DOT` set whenever bit `p` of the mask is set; `clear` sends the byte
0x00 to each of the positions 0..TM1637_DIGITS-1 whatever the mask. -/
theorem dot_mask_applied_on_writes (cfg : Config) (s : State)
    (hD : cfg.TM1637_DIGITS ≤ 255) :
    (∀ p b, DotsApplied cfg s (setByte cfg s p b)) ∧
      (∀ p d, DotsApplied cfg s (setDigit cfg s p d)) ∧
      (∀ number offset align, DotsApplied cfg s (setNumber cfg s number offset align)) ∧
      (∀ number offset width pad,
        DotsApplied cfg s (setNumberPad cfg s number offset width pad)) ∧
      (∀ number offset width pad,
        DotsApplied cfg s (setNumberHex cfg s number offset width pad)) ∧
      (∀ p ch, DotsApplied cfg s (setChar cfg s p ch)) ∧
      (∀ value offset, DotsApplied cfg s (setChars cfg s value offset)) ∧
      (∀ fuel value, DotsApplied cfg s (scrollChars cfg fuel s value).1) ∧
      clear cfg s = emit s ((List.range cfg.TM1637_DIGITS).map fun a => BusOp.data a 0) := by
  refine ⟨setByte_dots cfg s, setDigit_dots cfg s, ?_, ?_, ?_, setChar_dots cfg s, ?_, ?_, ?_⟩
  · intro number offset align
    exact setNumberLoop_dots cfg _ _ _ s
  · intro number offset width pad
    exact dotsApplied_trans cfg (digitsLoop_dots cfg _ _ number number width offset s)
      (padLoop_dots cfg pad 256 _ _ _)
  · intro number offset width pad
    exact dotsApplied_trans cfg (digitsLoop_dots cfg _ _ number number width offset s)
      (padLoop_dots cfg pad 256 _ _ _)
  · intro value offset
    exact setChars_dots cfg value s offset
  · intro fuel value
    cases value with
    | none => exact dotsApplied_refl cfg s
    | some v =>
      by_cases h0 : v.getD 0 0 = 0
      · simp only [scrollChars, h0, if_true]
        exact dotsApplied_refl cfg s
      · simp only [scrollChars, h0, if_false]
        exact scrollLoop_dots cfg v fuel 0 s
  · have h := clearLoop_eq cfg hD 256 0 s (Nat.zero_le _) (by omega)
    simpa [clear] using h

theorem dot_mask_applied_on_writes_witness :
    sampleCfg.TM1637_DIGITS ≤ 255 ∧
      DotsApplied sampleCfg (fresh 5) (setNumberPad sampleCfg (fresh 5) 42 3 4 0) ∧
      setNumberPad sampleCfg (fresh 5) 42 3 4 0 =
        emit (fresh 5)
          [BusOp.data 3 0x5B, BusOp.data 2 0xE6, BusOp.data 1 0x00, BusOp.data 0 0x80] :=
  ⟨by decide,
    (dot_mask_applied_on_writes sampleCfg (fresh 5) (by decide)).2.2.2.1 42 3 4 0,
    by decide⟩

/-- C9: for every digit character `ch` in `'0'..'9'` for which the mapper
returns 0 and every position `p` in 0..7, `setChar(p, ch)` makes exactly one
call, to position `p`, carrying `TM_DIGITS[ch - '0']` under the dot overlay of
`p`: the call made by `setDigit(p, ch - '0')`. -/
theorem setChar_digit (cfg : Config) (s : State) (p ch : Nat)
    (hmap : cfg.TM1637_map_char ch = 0) (h0 : 48 ≤ ch) (h9 : ch ≤ 57) (_hp : p < 8) :
    setChar cfg s p ch =
        emit s [BusOp.data p (withDot cfg s.dotMask p (cfg.TM_DIGITS (ch - 48)))] ∧
      setChar cfg s p ch = setDigit cfg s p (ch - 48) := by
  have hsp : ch ≠ 32 := by omega
  have hlow : ¬ (97 ≤ ch ∧ ch ≤ 122) := by omega
  have hup : ¬ (65 ≤ ch ∧ ch ≤ 90) := by omega
  have key : setChar cfg s p ch = setByte cfg s p (cfg.TM_DIGITS (ch - 48)) := by
    simp [setChar, hmap, hsp, hlow, hup, h0, h9]
  refine ⟨by rw [key, setByte_eq, overlaid_low cfg _ p _ (by omega)], ?_⟩
  rw [key]
  unfold setDigit
  rw [land_15_of_lt (by omega)]

theorem setChar_digit_witness :
    (sampleCfg.TM1637_map_char 55 = 0 ∧ 48 ≤ 55 ∧ 55 ≤ 57 ∧ 1 < 8) ∧
      setChar sampleCfg (fresh 2) 1 55 = emit (fresh 2) [BusOp.data 1 0x87] ∧
      setChar sampleCfg (fresh 2) 1 55 = setDigit sampleCfg (fresh 2) 1 (55 - 48) :=
  ⟨by decide,
    (setChar_digit sampleCfg (fresh 2) 1 55 (by decide) (by decide) (by decide)
      (by decide)).1.trans (by decide),
    (setChar_digit sampleCfg (fresh 2) 1 55 (by decide) (by decide) (by decide) (by decide)).2⟩

theorem foldl_range_succ {α : Type} (f : α → Nat → α) (n : Nat) (a : α) :
    (List.range (n + 1)).foldl f a = (List.range n).foldl (fun st j => f st (j + 1)) (f a 0) := by
  rw [List.range_succ_eq_map, List.foldl_cons, List.foldl_map]

theorem foldl_range_congr {α : Type} (f g : α → Nat → α) (n : Nat) (a : α)
    (h : ∀ st j, j < n → f st j = g st j) :
    (List.range n).foldl f a = (List.range n).foldl g a := by
  apply List.foldl_ext
  intro st j hj
  exact h st j (List.mem_range.mp hj)

theorem string_getD_lt (chars rest : List Nat) (i : Nat) (hi : i < chars.length) :
    (chars ++ 0 :: rest).getD i 0 = chars.getD i 0 :=
  List.getD_append chars (0 :: rest) 0 i hi

theorem string_getD_length (chars rest : List Nat) :
    (chars ++ 0 :: rest).getD chars.length 0 = 0 := by
  rw [List.getD_append_right chars (0 :: rest) 0 chars.length (Nat.le_refl _), Nat.sub_self]
  rfl

theorem string_getD_ne_zero (chars rest : List Nat) (hc : ∀ c ∈ chars, c ≠ 0) (i : Nat)
    (hi : i < chars.length) : (chars ++ 0 :: rest).getD i 0 ≠ 0 := by
  rw [string_getD_lt chars rest i hi, List.getD_eq_getElem chars 0 hi]
  exact hc _ (List.getElem_mem _)

theorem setChars_fold (cfg : Config) :
    ∀ (chars rest : List Nat) (s : State) (O : Nat), (∀ c ∈ chars, c ≠ 0) →
      setChars cfg s (chars ++ 0 :: rest) O =
        (List.range chars.length).foldl
          (fun st i => setChar cfg st (if i = 0 then O else (O + i) % 256) (chars.getD i 0)) s := by
  intro chars
  induction chars with
  | nil =>
    intro rest s O _
    simp [setChars]
  | cons c cs ih =>
    intro rest s O hc
    have hc0 : c ≠ 0 := hc c (List.mem_cons_self _ _)
    have hcs : ∀ x ∈ cs, x ≠ 0 := fun x hx => hc x (List.mem_cons_of_mem _ hx)
    rw [List.cons_append, List.length_cons, foldl_range_succ]
    simp only [setChars, hc0, ne_eq, not_false_eq_true, if_true, List.getD_cons_zero,
      List.getD_cons_succ]
    rw [ih rest _ _ hcs]
    apply foldl_range_congr
    intro st j _
    have h1 : (if j = 0 then (O + 1) % 256 else ((O + 1) % 256 + j) % 256) = (O + (j + 1)) % 256 := by
      by_cases hj : j = 0
      · subst hj; simp
      · rw [if_neg hj]; omega
    have h2 : (if j + 1 = 0 then O else (O + (j + 1)) % 256) = (O + (j + 1)) % 256 := by
      rw [if_neg (by omega)]
    rw [h1, h2]

/-! ## The frames of `scrollChars` -/

theorem foldl_setChar_shift (cfg : Config) (value : List Nat) (o i n : Nat) (s : State) :
    (List.range n).foldl (fun st j => setChar cfg st (i + 1 + j) (value.getD (o + (i + 1 + j)) 0)) s =
      (List.range n).foldl
        (fun st j => setChar cfg st (i + (j + 1)) (value.getD (o + (i + (j + 1))) 0)) s := by
  apply foldl_range_congr
  intro st j _
  have h : i + 1 + j = i + (j + 1) := by omega
  rw [h]

/-- A pass of the `for` loop that meets no terminator runs to the last position. -/
theorem scrollFrame_full (cfg : Config) (value : List Nat) (o : Nat)
    (hD : cfg.TM1637_DIGITS ≤ 255) :
    ∀ (n i fuel : Nat) (s : State), i + n = cfg.TM1637_DIGITS → n + 1 ≤ fuel →
      (∀ j, i ≤ j → j < cfg.TM1637_DIGITS → value.getD (o + j + 1) 0 ≠ 0) →
      scrollFrame cfg value o fuel i s =
        ((List.range n).foldl
          (fun st j => setChar cfg st (i + j) (value.getD (o + (i + j)) 0)) s, false) := by
  intro n
  induction n with
  | zero =>
    intro i fuel s hi hf _
    cases fuel with
    | zero => omega
    | succ f =>
      have hiD : i = cfg.TM1637_DIGITS := by omega
      simp [scrollFrame, hiD]
  | succ n ih =>
    intro i fuel s hi hf hne
    cases fuel with
    | zero => omega
    | succ f =>
      have hiD : i ≠ cfg.TM1637_DIGITS := by omega
      have htest : value.getD (o + i + 1) 0 ≠ 0 := hne i (Nat.le_refl _) (by omega)
      have hmod : (i + 1) % 256 = i + 1 := by omega
      simp only [scrollFrame, hiD, ne_eq, not_false_eq_true, if_true, htest, if_false]
      rw [hmod, ih (i + 1) f _ (by omega) (by omega) (fun j h1 h2 => hne j (by omega) h2),
        foldl_range_succ, foldl_setChar_shift]
      rfl

/-- A pass of the `for` loop that meets the terminator after `n + 1` characters
renders them, pauses and returns. -/
theorem scrollFrame_last (cfg : Config) (value : List Nat) (o : Nat)
    (hD : cfg.TM1637_DIGITS ≤ 255) :
    ∀ (n i fuel : Nat) (s : State), i + n < cfg.TM1637_DIGITS → n + 1 ≤ fuel →
      (∀ j, i ≤ j → j < i + n → value.getD (o + j + 1) 0 ≠ 0) →
      value.getD (o + (i + n) + 1) 0 = 0 →
      scrollFrame cfg value o fuel i s =
        (delay_ms ((List.range (n + 1)).foldl
          (fun st j => setChar cfg st (i + j) (value.getD (o + (i + j)) 0)) s) 250, true) := by
  intro n
  induction n with
  | zero =>
    intro i fuel s hi hf _ hz
    cases fuel with
    | zero => omega
    | succ f =>
      have hiD : i ≠ cfg.TM1637_DIGITS := by omega
      have hz1 : value.getD (o + i + 1) 0 = 0 := hz
      simp only [scrollFrame, hiD, ne_eq, not_false_eq_true, if_true, hz1]
      rw [foldl_range_succ]
      rfl
  | succ n ih =>
    intro i fuel s hi hf hne hz
    cases fuel with
    | zero => omega
    | succ f =>
      have hiD : i ≠ cfg.TM1637_DIGITS := by omega
      have htest : value.getD (o + i + 1) 0 ≠ 0 := hne i (Nat.le_refl _) (by omega)
      have hmod : (i + 1) % 256 = i + 1 := by omega
      have hz1 : value.getD (o + (i + 1 + n) + 1) 0 = 0 := by
        have e : i + 1 + n = i + (n + 1) := by omega
        rw [e]; exact hz
      simp only [scrollFrame, hiD, ne_eq, not_false_eq_true, if_true, htest, if_false]
      rw [hmod, ih (i + 1) f _ (by omega) (by omega) (fun j h1 h2 => hne j (by omega) (by omega))
          hz1,
        foldl_range_succ (fun st j => setChar cfg st (i + j) (value.getD (o + (i + j)) 0)) (n + 1),
        foldl_setChar_shift]
      rfl

theorem frameSpec_eq (cfg : Config) (value : List Nat) (k n : Nat) (s : State) :
    delay_ms ((List.range n).foldl
      (fun st j => setChar cfg st (0 + j) (value.getD (k + (0 + j)) 0)) s) 250 =
      frameSpec cfg value k n s := by
  unfold frameSpec
  simp only [Nat.zero_add]

theorem scrollLoop_step_last (cfg : Config) (value : List Nat) (fuel o : Nat) (s t : State)
    (h : scrollFrame cfg value o 256 0 s = (t, true)) :
    scrollLoop cfg value (fuel + 1) o s = (t, true) := by
  simp only [scrollLoop, h, if_true]

theorem scrollLoop_step_full (cfg : Config) (value : List Nat) (fuel o : Nat) (s t : State)
    (h : scrollFrame cfg value o 256 0 s = (t, false)) :
    scrollLoop cfg value (fuel + 1) o s =
      scrollLoop cfg value fuel ((o + 1) % 4294967296) (delay_ms t 250) := by
  simp only [scrollLoop, h]
  rfl

/-- The run of the `while(1)` loop on a string of `L ≥ 1` non-zero characters:
`m` full frames from offset `o`, then the frame at offset `L - D` that meets the
terminator after `min D L` characters. -/
theorem scrollLoop_run (cfg : Config) (chars rest : List Nat) (hc : ∀ c ∈ chars, c ≠ 0)
    (hD1 : 1 ≤ cfg.TM1637_DIGITS) (hD : cfg.TM1637_DIGITS ≤ 255) (hL1 : 1 ≤ chars.length)
    (hL32 : chars.length < 4294967296) :
    ∀ (m o fuel : Nat) (s : State), o + m = chars.length - cfg.TM1637_DIGITS → m + 1 ≤ fuel →
      scrollLoop cfg (chars ++ 0 :: rest) fuel o s =
        (frameSpec cfg (chars ++ 0 :: rest) (o + m) (min cfg.TM1637_DIGITS chars.length)
          ((List.range m).foldl
            (fun st k => frameSpec cfg (chars ++ 0 :: rest) (o + k) cfg.TM1637_DIGITS st) s),
          true) := by
  intro m
  induction m with
  | zero =>
    intro o fuel s ho hf
    cases fuel with
    | zero => omega
    | succ f =>
      have hsum : o + min cfg.TM1637_DIGITS chars.length = chars.length := by omega
      have hfr := scrollFrame_last cfg (chars ++ 0 :: rest) o hD
        (min cfg.TM1637_DIGITS chars.length - 1) 0 256 s (by omega) (by omega)
        (fun j _ h2 => string_getD_ne_zero chars rest hc (o + j + 1) (by omega))
        (by
          have e : o + (0 + (min cfg.TM1637_DIGITS chars.length - 1)) + 1 = chars.length := by
            omega
          rw [e]
          exact string_getD_length chars rest)
      have e1 : min cfg.TM1637_DIGITS chars.length - 1 + 1 = min cfg.TM1637_DIGITS chars.length := by
        omega
      rw [e1, frameSpec_eq] at hfr
      rw [scrollLoop_step_last cfg _ f o s _ hfr]
      simp
  | succ m ih =>
    intro o fuel s ho hf
    cases fuel with
    | zero => omega
    | succ f =>
      have hfr := scrollFrame_full cfg (chars ++ 0 :: rest) o hD cfg.TM1637_DIGITS 0 256 s
        (by omega) (by omega)
        (fun j _ h2 => string_getD_ne_zero chars rest hc (o + j + 1) (by omega))
      have hmod : (o + 1) % 4294967296 = o + 1 := by omega
      rw [scrollLoop_step_full cfg _ f o s _ hfr, hmod, frameSpec_eq,
        ih (o + 1) f _ (by omega) (by omega), foldl_range_succ]
      have e1 : o + 1 + m = o + (m + 1) := by omega
      have e2 : (List.range m).foldl
          (fun st k => frameSpec cfg (chars ++ 0 :: rest) (o + 1 + k) cfg.TM1637_DIGITS st)
          (frameSpec cfg (chars ++ 0 :: rest) o cfg.TM1637_DIGITS s) =
          (List.range m).foldl
          (fun st k => frameSpec cfg (chars ++ 0 :: rest) (o + (k + 1)) cfg.TM1637_DIGITS st)
          (frameSpec cfg (chars ++ 0 :: rest) (o + 0) cfg.TM1637_DIGITS s) := by
        apply foldl_range_congr
        intro st k _
        have e : o + 1 + k = o + (k + 1) := by omega
        rw [e]
      rw [e1, e2]

theorem frameSpec_chars (cfg : Config) (chars rest : List Nat) (k n : Nat) (s : State)
    (h : k + n ≤ chars.length) :
    frameSpec cfg (chars ++ 0 :: rest) k n s = frameSpec cfg chars k n s := by
  unfold frameSpec
  congr 1
  apply foldl_range_congr
  intro st j hj
  rw [string_getD_lt chars rest (k + j) (by omega)]

/-- The whole run of `scrollChars` on a string of `L ≥ 1` non-zero characters,
given fuel for its `L - D + 1` frames. -/
theorem scrollChars_run (cfg : Config) (chars rest : List Nat) (s : State) (fuel : Nat)
    (hc : ∀ c ∈ chars, c ≠ 0) (hL1 : 1 ≤ chars.length)
    (hD1 : 1 ≤ cfg.TM1637_DIGITS) (hD : cfg.TM1637_DIGITS ≤ 255)
    (hL32 : chars.length < 4294967296)
    (hfuel : chars.length - cfg.TM1637_DIGITS + 1 ≤ fuel) :
    scrollChars cfg fuel s (some (chars ++ 0 :: rest)) =
      (frameSpec cfg chars (chars.length - cfg.TM1637_DIGITS)
          (min cfg.TM1637_DIGITS chars.length)
          ((List.range (chars.length - cfg.TM1637_DIGITS)).foldl
            (fun st k => frameSpec cfg chars k cfg.TM1637_DIGITS st) s),
        true) := by
  have h0 : (chars ++ 0 :: rest).getD 0 0 ≠ 0 := string_getD_ne_zero chars rest hc 0 (by omega)
  simp only [scrollChars, h0, if_false]
  rw [scrollLoop_run cfg chars rest hc hD1 hD hL1 hL32 (chars.length - cfg.TM1637_DIGITS) 0 fuel s
    (by omega) hfuel]
  simp only [Nat.zero_add]
  rw [frameSpec_chars cfg chars rest _ _ _ (by omega)]
  congr 2
  apply foldl_range_congr
  intro st k hk
  exact frameSpec_chars cfg chars rest k _ st (by omega)

theorem pauses_emit_data (s : State) (a d : Nat) :
    pauses (emit s [BusOp.data a d]).bus = pauses s.bus := by
  simp [pauses, emit, List.count_singleton]

theorem pauses_setChar (cfg : Config) (s : State) (p ch : Nat) :
    pauses (setChar cfg s p ch).bus = pauses s.bus := by
  unfold setChar
  split
  · rw [setByte_eq, pauses_emit_data]
  · split
    · rw [setByte_eq, pauses_emit_data]
    · split
      · rw [setByte_eq, pauses_emit_data]
      · split
        · rw [setByte_eq, pauses_emit_data]
        · rfl

theorem pauses_frameSpec (cfg : Config) (value : List Nat) (k : Nat) :
    ∀ (n : Nat) (s : State), pauses (frameSpec cfg value k n s).bus = pauses s.bus + 1 := by
  have hfold : ∀ (n : Nat) (s : State),
      pauses ((List.range n).foldl
        (fun st i => setChar cfg st i (value.getD (k + i) 0)) s).bus = pauses s.bus := by
    intro n
    induction n with
    | zero => intro s; rfl
    | succ n ih =>
      intro s
      rw [List.range_succ, List.foldl_append, List.foldl_cons, List.foldl_nil, pauses_setChar, ih]
  intro n s
  unfold frameSpec delay_ms
  rw [emit_bus]
  simp only [pauses, List.count_append, List.count_singleton_self]
  have h := hfold n s
  simp only [pauses] at h
  rw [h]

theorem pauses_frames (cfg : Config) (value : List Nat) (w : Nat) :
    ∀ (m : Nat) (s : State),
      pauses ((List.range m).foldl (fun st k => frameSpec cfg value k w st) s).bus =
        pauses s.bus + m := by
  intro m
  induction m with
  | zero => intro s; rfl
  | succ m ih =>
    intro s
    rw [List.range_succ, List.foldl_append, List.foldl_cons, List.foldl_nil, pauses_frameSpec, ih]
    omega

/-! ## The claims on `setChars` and `scrollChars` -/

/-- C11: for every string of `L` non-zero characters followed by the terminator
and every offset `O` (a byte), `setChars(s, O)` has exactly the effect of
`setChar((O + i) mod 256, s[i])` for `i = 0, ..., L - 1` in that order: a skipped
character still advances the position, the terminator and whatever follows it
are not rendered, and nothing is written before the first `setChar`. -/
theorem setChars_is_setChar_sequence (cfg : Config) (s : State) (chars rest : List Nat) (O : Nat)
    (hc : ∀ c ∈ chars, c ≠ 0) (hO : O < 256) :
    setChars cfg s (chars ++ 0 :: rest) O =
      (List.range chars.length).foldl
        (fun st i => setChar cfg st ((O + i) % 256) (chars.getD i 0)) s := by
  rw [setChars_fold cfg chars rest s O hc]
  apply foldl_range_congr
  intro st j _
  by_cases hj : j = 0
  · subst hj
    have h : (O + 0) % 256 = O := by omega
    rw [if_pos rfl, h]
  · rw [if_neg hj]

theorem setChars_is_setChar_sequence_witness :
    ((∀ c ∈ [65, 33, 49], c ≠ 0) ∧ 255 < 256) ∧
      setChars sampleCfg (fresh 0) ([65, 33, 49] ++ 0 :: [50]) 255 =
        emit (fresh 0) [BusOp.data 255 0x77, BusOp.data 1 0x06] :=
  ⟨⟨by decide, by decide⟩,
    (setChars_is_setChar_sequence sampleCfg (fresh 0) [65, 33, 49] [50] 255 (by decide)
      (by decide)).trans (by decide)⟩

/-- C14 (as stated, refuted): on a two-digit module `scrollChars("AB")` renders
`A` and `B` once, pauses once and returns: one frame and one pause, not two,
however many frames it is allowed. -/
theorem scrollChars_AB_single_frame :
    scrollChars sampleCfg2 1 (fresh 0) (some [65, 66, 0]) =
        (emit (fresh 0) [BusOp.data 0 0x77, BusOp.data 1 0x7C, BusOp.delay_ms 250], true) ∧
      scrollChars sampleCfg2 10 (fresh 0) (some [65, 66, 0]) =
        (emit (fresh 0) [BusOp.data 0 0x77, BusOp.data 1 0x7C, BusOp.delay_ms 250], true) ∧
      pauses (scrollChars sampleCfg2 10 (fresh 0) (some [65, 66, 0])).1.bus = 1 ∧
      pauses (scrollChars sampleCfg2 10 (fresh 0) (some [65, 66, 0])).1.bus ≠ 2 := by
  decide

/-- C14 (amended): on a display with `TM1637_DIGITS = 2`, `scrollChars("AB")`
plays exactly one frame, `setChar(0, 'A')` then `setChar(1, 'B')`, followed by
one 250 ms pause, and returns. -/
theorem scrollChars_AB (cfg : Config) (s : State) (rest : List Nat) (fuel : Nat)
    (hD : cfg.TM1637_DIGITS = 2) (hfuel : 1 ≤ fuel) :
    scrollChars cfg fuel s (some (65 :: 66 :: 0 :: rest)) =
        (delay_ms (setChar cfg (setChar cfg s 0 65) 1 66) 250, true) ∧
      pauses (scrollChars cfg fuel s (some (65 :: 66 :: 0 :: rest))).1.bus = pauses s.bus + 1 := by
  have hrun := scrollChars_run cfg [65, 66] rest s fuel (by decide) (by decide) (by omega)
    (by omega) (by decide) (by simpa [hD] using hfuel)
  have hval : ([65, 66] ++ 0 :: rest : List Nat) = 65 :: 66 :: 0 :: rest := rfl
  have hframe : frameSpec cfg [65, 66] 0 2 s =
      delay_ms (setChar cfg (setChar cfg s 0 65) 1 66) 250 := rfl
  rw [hval] at hrun
  simp only [hD, List.length_cons, List.length_nil] at hrun
  have hrun2 : scrollChars cfg fuel s (some (65 :: 66 :: 0 :: rest)) =
      (delay_ms (setChar cfg (setChar cfg s 0 65) 1 66) 250, true) := by
    rw [hrun]
    exact congrArg (fun x => (x, true)) hframe
  refine ⟨hrun2, ?_⟩
  rw [hrun2]
  simp only [delay_ms, emit_bus, pauses, List.count_append, List.count_singleton_self]
  have h1 := pauses_setChar cfg (setChar cfg s 0 65) 1 66
  have h2 := pauses_setChar cfg s 0 65
  simp only [pauses] at h1 h2
  rw [h1, h2]

theorem scrollChars_AB_witness :
    (sampleCfg2.TM1637_DIGITS = 2 ∧ 1 ≤ 3) ∧
      scrollChars sampleCfg2 3 (fresh 0) (some (65 :: 66 :: 0 :: [])) =
        (delay_ms (setChar sampleCfg2 (setChar sampleCfg2 (fresh 0) 0 65) 1 66) 250, true) :=
  ⟨⟨by decide, by decide⟩, (scrollChars_AB sampleCfg2 (fresh 0) [] 3 (by decide) (by decide)).1⟩

/-- C15 (as stated, refuted): on a four-digit module `scrollChars("A")` calls
`setChar` for position 0 only, pauses and returns: the frame does not run over
the positions 1, 2 and 3 (with the bytes `B`, `C` behind the terminator a frame
over all four positions would show them), and the final character is rendered
at position 0, nothing being sent to the rightmost position 3. -/
theorem scrollChars_short_string_partial_frame :
    scrollChars sampleCfg 5 (fresh 0) (some [65, 0, 66, 67]) =
        (emit (fresh 0) [BusOp.data 0 0x77, BusOp.delay_ms 250], true) ∧
      scrollChars sampleCfg 5 (fresh 0) (some [65, 0, 66, 67]) ≠
        (frameSpec sampleCfg [65, 0, 66, 67] 0 sampleCfg.TM1637_DIGITS (fresh 0), true) ∧
      (∀ d, BusOp.data (sampleCfg.TM1637_DIGITS - 1) d ∉
        (scrollChars sampleCfg 5 (fresh 0) (some [65, 0, 66, 67])).1.bus) := by
  refine ⟨by decide, by decide, ?_⟩
  intro d hmem
  have h : (scrollChars sampleCfg 5 (fresh 0) (some [65, 0, 66, 67])).1.bus =
      [BusOp.data 0 0x77, BusOp.delay_ms 250] := by decide
  rw [h] at hmem
  simp at hmem
  exact absurd hmem.1 (by decide)

/-- C15 (amended): for every string of `L ≥ 1` non-zero characters, every frame
before the last fills all `D = TM1637_DIGITS` positions, position `i` receiving
`setChar(i, s[frameOffset + i])`; the last frame, at frame offset `L - D` (0
when `L < D`), fills the positions `0 .. min D L - 1` only, its last write
being the final character of `s` at position `min D L - 1`, which is the
rightmost position `D - 1` exactly when `L ≥ D`; `scrollChars` returns after
that frame and its pause. -/
theorem scrollChars_frames_fill (cfg : Config) (s : State) (chars rest : List Nat) (fuel : Nat)
    (hc : ∀ c ∈ chars, c ≠ 0) (hL1 : 1 ≤ chars.length)
    (hD1 : 1 ≤ cfg.TM1637_DIGITS) (hD : cfg.TM1637_DIGITS ≤ 255)
    (hL32 : chars.length < 4294967296)
    (hfuel : chars.length - cfg.TM1637_DIGITS + 1 ≤ fuel) :
    scrollChars cfg fuel s (some (chars ++ 0 :: rest)) =
        (frameSpec cfg chars (chars.length - cfg.TM1637_DIGITS)
            (min cfg.TM1637_DIGITS chars.length)
            ((List.range (chars.length - cfg.TM1637_DIGITS)).foldl
              (fun st k => frameSpec cfg chars k cfg.TM1637_DIGITS st) s),
          true) ∧
      ∀ st : State,
        frameSpec cfg chars (chars.length - cfg.TM1637_DIGITS)
            (min cfg.TM1637_DIGITS chars.length) st =
          delay_ms
            (setChar cfg
              ((List.range (min cfg.TM1637_DIGITS chars.length - 1)).foldl
                (fun st i =>
                  setChar cfg st i (chars.getD (chars.length - cfg.TM1637_DIGITS + i) 0)) st)
              (min cfg.TM1637_DIGITS chars.length - 1) (chars.getD (chars.length - 1) 0))
            250 := by
  refine ⟨scrollChars_run cfg chars rest s fuel hc hL1 hD1 hD hL32 hfuel, ?_⟩
  intro st
  have e1 : min cfg.TM1637_DIGITS chars.length =
      (min cfg.TM1637_DIGITS chars.length - 1) + 1 := by omega
  have e2 : chars.length - cfg.TM1637_DIGITS + (min cfg.TM1637_DIGITS chars.length - 1) =
      chars.length - 1 := by omega
  unfold frameSpec
  conv_lhs => rw [e1, List.range_succ, List.foldl_append, List.foldl_cons, List.foldl_nil, e2]

theorem scrollChars_frames_fill_witness :
    ((∀ c ∈ [65, 66], c ≠ 0) ∧ 1 ≤ [65, 66].length ∧ 1 ≤ sampleCfg.TM1637_DIGITS ∧
        sampleCfg.TM1637_DIGITS ≤ 255 ∧ [65, 66].length < 4294967296 ∧
        [65, 66].length - sampleCfg.TM1637_DIGITS + 1 ≤ 1) ∧
      scrollChars sampleCfg 1 (fresh 0) (some ([65, 66] ++ 0 :: [67])) =
        (emit (fresh 0) [BusOp.data 0 0x77, BusOp.data 1 0x7C, BusOp.delay_ms 250], true) :=
  ⟨⟨by decide, by decide, by decide, by decide, by decide, by decide⟩,
    (scrollChars_frames_fill sampleCfg (fresh 0) [65, 66] [67] 1 (by decide) (by decide)
      (by decide) (by decide) (by decide) (by decide)).1.trans (by decide)⟩

/-- C16: `scrollChars` called with a null pointer or with an empty string
returns at once, whatever the frame budget: no bus call, no delay, the dot mask
and hence the display content unchanged. -/
theorem scrollChars_null_or_empty (cfg : Config) (s : State) (fuel : Nat) (rest : List Nat) :
    scrollChars cfg fuel s none = (s, true) ∧
      scrollChars cfg fuel s (some (0 :: rest)) = (s, true) ∧
      scrollChars cfg fuel s (some []) = (s, true) := by
  refine ⟨rfl, ?_, ?_⟩
  · simp [scrollChars]
  · simp [scrollChars]

/-- C19: for every string of `L` non-zero characters with `L ≥ D`, where
`D = TM1637_DIGITS` is a byte and at least 1, `scrollChars(s)` returns after
exactly `L - D + 1` frames: frame `k` (`k = 0 .. L - D`) performs
`setChar(i, s[k + i])` for `i = 0 .. D - 1` in increasing `i` and is followed by
one 250 ms pause, so that `L - D + 1` pauses are made in all. -/
theorem scrollChars_frame_count (cfg : Config) (s : State) (chars rest : List Nat) (fuel : Nat)
    (hc : ∀ c ∈ chars, c ≠ 0) (hD1 : 1 ≤ cfg.TM1637_DIGITS) (hD : cfg.TM1637_DIGITS ≤ 255)
    (hLD : cfg.TM1637_DIGITS ≤ chars.length) (hL32 : chars.length < 4294967296)
    (hfuel : chars.length - cfg.TM1637_DIGITS + 1 ≤ fuel) :
    scrollChars cfg fuel s (some (chars ++ 0 :: rest)) =
        ((List.range (chars.length - cfg.TM1637_DIGITS + 1)).foldl
          (fun st k => frameSpec cfg chars k cfg.TM1637_DIGITS st) s, true) ∧
      pauses (scrollChars cfg fuel s (some (chars ++ 0 :: rest))).1.bus =
        pauses s.bus + (chars.length - cfg.TM1637_DIGITS + 1) := by
  have hrun := scrollChars_run cfg chars rest s fuel hc (by omega) hD1 hD hL32 hfuel
  have hmin : min cfg.TM1637_DIGITS chars.length = cfg.TM1637_DIGITS := by omega
  have hform : scrollChars cfg fuel s (some (chars ++ 0 :: rest)) =
      ((List.range (chars.length - cfg.TM1637_DIGITS + 1)).foldl
        (fun st k => frameSpec cfg chars k cfg.TM1637_DIGITS st) s, true) := by
    rw [hrun, hmin, List.range_succ, List.foldl_append, List.foldl_cons, List.foldl_nil]
  refine ⟨hform, ?_⟩
  rw [hform]
  exact pauses_frames cfg chars cfg.TM1637_DIGITS _ s

theorem scrollChars_frame_count_witness :
    ((∀ c ∈ [72, 69, 76, 76, 79], c ≠ 0) ∧ 1 ≤ sampleCfg.TM1637_DIGITS ∧
        sampleCfg.TM1637_DIGITS ≤ 255 ∧ sampleCfg.TM1637_DIGITS ≤ [72, 69, 76, 76, 79].length ∧
        [72, 69, 76, 76, 79].length < 4294967296 ∧
        [72, 69, 76, 76, 79].length - sampleCfg.TM1637_DIGITS + 1 ≤ 2) ∧
      scrollChars sampleCfg 2 (fresh 0) (some ([72, 69, 76, 76, 79] ++ 0 :: [])) =
        (emit (fresh 0)
          [BusOp.data 0 0x76, BusOp.data 1 0x79, BusOp.data 2 0x38, BusOp.data 3 0x38,
            BusOp.delay_ms 250,
            BusOp.data 0 0x79, BusOp.data 1 0x38, BusOp.data 2 0x38, BusOp.data 3 0x5C,
            BusOp.delay_ms 250], true) ∧
      pauses (scrollChars sampleCfg 2 (fresh 0) (some ([72, 69, 76, 76, 79] ++ 0 :: []))).1.bus =
        pauses (fresh 0).bus + ([72, 69, 76, 76, 79].length - sampleCfg.TM1637_DIGITS + 1) :=
  ⟨⟨by decide, by decide, by decide, by decide, by decide, by decide⟩,
    (scrollChars_frame_count sampleCfg (fresh 0) [72, 69, 76, 76, 79] [] 2 (by decide)
      (by decide) (by decide) (by decide) (by decide) (by decide)).1.trans (by decide),
    (scrollChars_frame_count sampleCfg (fresh 0) [72, 69, 76, 76, 79] [] 2 (by decide)
      (by decide) (by decide) (by decide) (by decide) (by decide)).2⟩

/-! ## The reads of `scrollChars` -/

theorem scrollFrame_flag (cfg : Config) (value : List Nat) (o : Nat) :
    ∀ (fuel i : Nat) (s : State),
      (scrollFrame cfg value o fuel i s).2 = (scrollFrameReads cfg value o fuel i).2 := by
  intro fuel
  induction fuel with
  | zero => intro i s; rfl
  | succ fuel ih =>
    intro i s
    by_cases hi : i = cfg.TM1637_DIGITS
    · simp [scrollFrame, scrollFrameReads, hi]
    · by_cases hz : value.getD (o + i + 1) 0 = 0
      · simp only [scrollFrame, scrollFrameReads, hi, hz, ne_eq, not_false_eq_true, if_true]
      · simp only [scrollFrame, scrollFrameReads, hi, hz, ne_eq, not_false_eq_true, if_true,
          if_false]
        exact ih _ _

theorem scrollLoop_flag (cfg : Config) (value : List Nat) :
    ∀ (fuel o : Nat) (s : State),
      (scrollLoop cfg value fuel o s).2 = (scrollLoopReads cfg value fuel o).2 := by
  intro fuel
  induction fuel with
  | zero => intro o s; rfl
  | succ fuel ih =>
    intro o s
    have hf := scrollFrame_flag cfg value o 256 0 s
    by_cases hret : (scrollFrameReads cfg value o 256 0).2 = true
    · have hret2 : (scrollFrame cfg value o 256 0 s).2 = true := by rw [hf]; exact hret
      simp only [scrollLoop, scrollLoopReads, hret, hret2, if_true]
    · have hret2 : ¬ (scrollFrame cfg value o 256 0 s).2 = true := by rw [hf]; exact hret
      simp only [scrollLoop, scrollLoopReads, hret, hret2, if_false]
      exact ih _ _

/-- The read log follows the control flow of `scrollChars`. -/
theorem scrollChars_flag (cfg : Config) (fuel : Nat) (s : State) (value : Option (List Nat)) :
    (scrollChars cfg fuel s value).2 = (scrollCharsReads cfg fuel value).2 := by
  cases value with
  | none => rfl
  | some v =>
    by_cases h0 : v.getD 0 0 = 0
    · simp only [scrollChars, scrollCharsReads, h0, if_true]
    · simp only [scrollChars, scrollCharsReads, h0, if_false]
      exact scrollLoop_flag cfg v fuel 0 s

theorem string_lt_of_ne_zero (chars rest : List Nat) (j : Nat) (hj : j ≤ chars.length)
    (hne : (chars ++ 0 :: rest).getD j 0 ≠ 0) : j < chars.length := by
  by_contra hcon
  have e : j = chars.length := by omega
  rw [e] at hne
  exact hne (string_getD_length chars rest)

theorem scrollFrameReads_ok (cfg : Config) (chars rest : List Nat) (o : Nat) :
    ∀ (fuel i : Nat), o + i < chars.length →
      ∀ r ∈ (scrollFrameReads cfg (chars ++ 0 :: rest) o fuel i).1, readOk chars.length r := by
  intro fuel
  induction fuel with
  | zero =>
    intro i _ r hr
    simp [scrollFrameReads] at hr
  | succ fuel ih =>
    intro i hi r hr
    by_cases hD : i = cfg.TM1637_DIGITS
    · simp [scrollFrameReads, hD] at hr
    · by_cases hz : (chars ++ 0 :: rest).getD (o + i + 1) 0 = 0
      · simp only [scrollFrameReads, hD, hz, ne_eq, not_false_eq_true, if_true,
          List.mem_cons, List.mem_singleton, List.not_mem_nil, or_false] at hr
        rcases hr with h | h
        · subst h; exact hi
        · subst h; show o + i + 1 ≤ chars.length; omega
      · have hlt := string_lt_of_ne_zero chars rest (o + i + 1) (by omega) hz
        simp only [scrollFrameReads, hD, hz, ne_eq, not_false_eq_true, if_true, if_false,
          List.mem_cons] at hr
        rcases hr with h | h | h
        · subst h; exact hi
        · subst h; show o + i + 1 ≤ chars.length; omega
        · have hmod : (i + 1) % 256 ≤ i + 1 := Nat.mod_le _ _
          exact ih ((i + 1) % 256) (by omega) r h

theorem scrollFrameReads_next (cfg : Config) (chars rest : List Nat) (o fuel : Nat)
    (hD1 : 1 ≤ cfg.TM1637_DIGITS) (ho : o < chars.length)
    (hret : ¬ (scrollFrameReads cfg (chars ++ 0 :: rest) o (fuel + 1) 0).2 = true) :
    o + 1 < chars.length := by
  have hD : (0 : Nat) ≠ cfg.TM1637_DIGITS := by omega
  by_cases hz : (chars ++ 0 :: rest).getD (o + 0 + 1) 0 = 0
  · have hflag : (scrollFrameReads cfg (chars ++ 0 :: rest) o (fuel + 1) 0).2 = true := by
      simp only [scrollFrameReads, hD, ne_eq, not_false_eq_true, if_true, hz]
    exact absurd hflag hret
  · exact string_lt_of_ne_zero chars rest (o + 0 + 1) (by omega) hz

theorem scrollLoopReads_ok (cfg : Config) (chars rest : List Nat)
    (hD1 : 1 ≤ cfg.TM1637_DIGITS) :
    ∀ (fuel o : Nat), o < chars.length →
      ∀ r ∈ (scrollLoopReads cfg (chars ++ 0 :: rest) fuel o).1, readOk chars.length r := by
  intro fuel
  induction fuel with
  | zero =>
    intro o _ r hr
    simp [scrollLoopReads] at hr
  | succ fuel ih =>
    intro o ho r hr
    have hframe := scrollFrameReads_ok cfg chars rest o 256 0 (by omega)
    by_cases hret : (scrollFrameReads cfg (chars ++ 0 :: rest) o 256 0).2 = true
    · simp only [scrollLoopReads, hret, if_true] at hr
      exact hframe r hr
    · have hnext := scrollFrameReads_next cfg chars rest o 255 hD1 ho hret
      have hmod : (o + 1) % 4294967296 ≤ o + 1 := Nat.mod_le _ _
      simp only [scrollLoopReads, hret, if_false] at hr
      rcases List.mem_append.mp hr with h | h
      · exact hframe r h
      · exact ih ((o + 1) % 4294967296) (by omega) r h

/-- C20: for every string of `L ≥ 1` non-zero characters and every display
width `D ≥ 1`, however long `scrollChars(s)` is run, every read of the string
for rendering has an index below `L` and every terminator test an index of at
most `L`: no read goes beyond the terminator and the terminator is never passed
to `setChar`. The read log and the bus log come from the same run (their
return flags agree). -/
theorem scrollChars_reads_in_bounds (cfg : Config) (s : State) (chars rest : List Nat)
    (fuel : Nat) (hc : ∀ c ∈ chars, c ≠ 0) (hL1 : 1 ≤ chars.length)
    (hD1 : 1 ≤ cfg.TM1637_DIGITS) :
    (∀ idx, Read.render idx ∈ (scrollCharsReads cfg fuel (some (chars ++ 0 :: rest))).1 →
        idx < chars.length) ∧
      (∀ idx, Read.test idx ∈ (scrollCharsReads cfg fuel (some (chars ++ 0 :: rest))).1 →
        idx ≤ chars.length) ∧
      (scrollCharsReads cfg fuel (some (chars ++ 0 :: rest))).2 =
        (scrollChars cfg fuel s (some (chars ++ 0 :: rest))).2 := by
  have h0 : (chars ++ 0 :: rest).getD 0 0 ≠ 0 := string_getD_ne_zero chars rest hc 0 (by omega)
  have hall : ∀ r ∈ (scrollCharsReads cfg fuel (some (chars ++ 0 :: rest))).1,
      readOk chars.length r := by
    intro r hr
    simp only [scrollCharsReads, h0, if_false, List.mem_cons] at hr
    rcases hr with h | h
    · subst h; exact Nat.zero_le _
    · exact scrollLoopReads_ok cfg chars rest hD1 fuel 0 (by omega) r h
  exact ⟨fun idx h => hall _ h, fun idx h => hall _ h,
    (scrollChars_flag cfg fuel s _).symm⟩

theorem scrollChars_reads_in_bounds_witness :
    ((∀ c ∈ [65, 66, 67, 68, 69], c ≠ 0) ∧ 1 ≤ [65, 66, 67, 68, 69].length ∧
        1 ≤ sampleCfg.TM1637_DIGITS) ∧
      (scrollCharsReads sampleCfg 7 (some ([65, 66, 67, 68, 69] ++ 0 :: [70]))).1 =
        [Read.test 0, Read.render 0, Read.test 1, Read.render 1, Read.test 2, Read.render 2,
          Read.test 3, Read.render 3, Read.test 4, Read.render 1, Read.test 2, Read.render 2,
          Read.test 3, Read.render 3, Read.test 4, Read.render 4, Read.test 5] ∧
      (∀ idx, Read.render idx ∈
          (scrollCharsReads sampleCfg 7 (some ([65, 66, 67, 68, 69] ++ 0 :: [70]))).1 →
        idx < [65, 66, 67, 68, 69].length) :=
  ⟨⟨by decide, by decide, by decide⟩, by decide,
    (scrollChars_reads_in_bounds sampleCfg (fresh 0) [65, 66, 67, 68, 69] [70] 7 (by decide)
      (by decide) (by decide)).1⟩

/-! ## The two lines of the bus -/

namespace Wire

theorem land_bits_disjoint {m n : Nat} (h : m &&& n = 0) (i : Nat) :
    (m.testBit i && n.testBit i) = false := by
  have h1 := congrArg (fun x => Nat.testBit x i) h
  simpa using h1

theorem testBit_255 (i : Nat) : Nat.testBit 0xFF i = decide (i < 8) :=
  Nat.testBit_two_pow_sub_one 8 i

theorem testBit_byte_high {n i : Nat} (hn : n < 256) (hi : ¬ i < 8) : n.testBit i = false := by
  apply Nat.testBit_lt_two_pow
  have h8 : 8 ≤ i := by omega
  have hpow : 2 ^ 8 ≤ 2 ^ i := Nat.pow_le_pow_right (by decide) h8
  omega

theorem lor_land_disjoint (v : Nat) {m n : Nat} (h : m &&& n = 0) :
    (v ||| m) &&& n = v &&& n := by
  apply Nat.eq_of_testBit_eq
  intro i
  have hd := land_bits_disjoint h i
  rw [Nat.testBit_and, Nat.testBit_or, Nat.testBit_and]
  cases hv : v.testBit i <;> cases hm : m.testBit i <;> cases hn : n.testBit i <;> simp_all

theorem clear_land_self (v : Nat) {m : Nat} (hm : m < 256) :
    (v &&& (0xFF ^^^ m)) &&& m = 0 := by
  apply Nat.eq_of_testBit_eq
  intro i
  rw [Nat.testBit_and, Nat.testBit_and, Nat.testBit_xor, testBit_255, Nat.zero_testBit]
  by_cases hi : i < 8
  · cases hv : v.testBit i <;> cases hb : m.testBit i <;> simp [hi]
  · rw [testBit_byte_high hm hi]
    simp

theorem clear_land_disjoint (v : Nat) {m n : Nat} (h : m &&& n = 0) (hn : n < 256) :
    (v &&& (0xFF ^^^ m)) &&& n = v &&& n := by
  apply Nat.eq_of_testBit_eq
  intro i
  have hd := land_bits_disjoint h i
  rw [Nat.testBit_and, Nat.testBit_and, Nat.testBit_xor, testBit_255, Nat.testBit_and]
  by_cases hi : i < 8
  · cases hv : v.testBit i <;> cases hm : m.testBit i <;> cases hb : n.testBit i <;> simp_all
  · rw [testBit_byte_high hn hi]
    simp

theorem level_clk_high (hw : Pins) (wf : hw.wellFormed) (v : Nat) :
    level hw (v ||| hw.TM_BIT_CLK) = (true, (level hw v).2) := by
  obtain ⟨hc, _, _, _, hcd⟩ := wf
  unfold level
  rw [lor_land_self, lor_land_disjoint v hcd]
  simp [hc]

theorem level_clk_low (hw : Pins) (wf : hw.wellFormed) (v : Nat) :
    level hw (v &&& (0xFF ^^^ hw.TM_BIT_CLK)) = (false, (level hw v).2) := by
  obtain ⟨_, _, hc8, hd8, hcd⟩ := wf
  unfold level
  rw [clear_land_self v hc8, clear_land_disjoint v hcd hd8]
  simp

theorem level_dat_high (hw : Pins) (wf : hw.wellFormed) (v : Nat) :
    level hw (v ||| hw.TM_BIT_DAT) = ((level hw v).1, true) := by
  obtain ⟨_, hd, _, _, hcd⟩ := wf
  have hdc : hw.TM_BIT_DAT &&& hw.TM_BIT_CLK = 0 := by rw [Nat.land_comm]; exact hcd
  unfold level
  rw [lor_land_self, lor_land_disjoint v hdc]
  simp [hd]

theorem level_dat_low (hw : Pins) (wf : hw.wellFormed) (v : Nat) :
    level hw (v &&& (0xFF ^^^ hw.TM_BIT_DAT)) = ((level hw v).1, false) := by
  obtain ⟨_, _, hc8, hd8, hcd⟩ := wf
  have hdc : hw.TM_BIT_DAT &&& hw.TM_BIT_CLK = 0 := by rw [Nat.land_comm]; exact hcd
  unfold level
  rw [clear_land_self v hd8, clear_land_disjoint v hdc hc8]
  simp

theorem finalLevel_append_out (hw : Pins) (v : Nat) :
    ∀ (t : List PinEv) (c0 : Bool × Bool),
      finalLevel hw c0 (t ++ [PinEv.out v]) = level hw v := by
  intro t
  induction t with
  | nil => intro c0; rfl
  | cons e t ih =>
    intro c0
    cases e <;> simp only [List.cons_append, finalLevel] <;> exact ih _

theorem finalLevel_append_delay (hw : Pins) (n : Nat) :
    ∀ (t : List PinEv) (c0 : Bool × Bool),
      finalLevel hw c0 (t ++ [PinEv.delay_us n]) = finalLevel hw c0 t := by
  intro t
  induction t with
  | nil => intro c0; rfl
  | cons e t ih =>
    intro c0
    cases e <;> simp only [List.cons_append, finalLevel] <;> exact ih _

theorem observe_append_out (hw : Pins) (v : Nat) :
    ∀ (t : List PinEv) (c0 : Bool × Bool),
      observe hw c0 (t ++ [PinEv.out v]) =
        observe hw c0 t ++ (classify (finalLevel hw c0 t) (level hw v)).toList := by
  intro t
  induction t with
  | nil => intro c0; simp [observe, finalLevel]
  | cons e t ih =>
    intro c0
    cases e with
    | ddr w => simp only [List.cons_append, observe, finalLevel]; exact ih _
    | out w =>
      simp only [List.cons_append, observe, finalLevel]
      show _ ++ observe hw (level hw w) (t ++ [PinEv.out v]) = _
      rw [ih, List.append_assoc]
    | delay_us k => simp only [List.cons_append, observe, finalLevel]; exact ih _

theorem observe_append_delay (hw : Pins) (n : Nat) :
    ∀ (t : List PinEv) (c0 : Bool × Bool),
      observe hw c0 (t ++ [PinEv.delay_us n]) = observe hw c0 t := by
  intro t
  induction t with
  | nil => intro c0; rfl
  | cons e t ih =>
    intro c0
    cases e with
    | ddr w => simp only [List.cons_append, observe]; exact ih _
    | out w =>
      simp only [List.cons_append, observe]
      show _ ++ observe hw (level hw w) (t ++ [PinEv.delay_us n]) = _
      rw [ih]
    | delay_us k => simp only [List.cons_append, observe]; exact ih _

theorem tracks_powerOn (hw : Pins) (ddr out : Nat) :
    Tracks hw (level hw out) (powerOn ddr out) [] (level hw out) :=
  ⟨rfl, rfl, rfl⟩

theorem tracks_writeOut (hw : Pins) {c0 : Bool × Bool} {p : Port} {syms : List Sym}
    {cur : Bool × Bool} (h : Tracks hw c0 p syms cur) (v : Nat) :
    Tracks hw c0 (writeOut p v) (syms ++ (classify cur (level hw v)).toList) (level hw v) := by
  obtain ⟨_, h2, h3⟩ := h
  refine ⟨rfl, finalLevel_append_out hw v p.trace c0, ?_⟩
  show observe hw c0 (p.trace ++ [PinEv.out v]) = _
  rw [observe_append_out, h2, h3]

theorem tracks_delay (hw : Pins) {c0 : Bool × Bool} {p : Port} {syms : List Sym}
    {cur : Bool × Bool} (h : Tracks hw c0 p syms cur) (n : Nat) :
    Tracks hw c0 (delay_us p n) syms cur := by
  obtain ⟨h1, h2, h3⟩ := h
  refine ⟨h1, ?_, ?_⟩
  · show finalLevel hw c0 (p.trace ++ [PinEv.delay_us n]) = _
    rw [finalLevel_append_delay, h2]
  · show observe hw c0 (p.trace ++ [PinEv.delay_us n]) = _
    rw [observe_append_delay, h3]

theorem tracks_congr (hw : Pins) {c0 : Bool × Bool} {p : Port} {syms syms2 : List Sym}
    {cur : Bool × Bool} (h : Tracks hw c0 p syms cur) (e : syms = syms2) :
    Tracks hw c0 p syms2 cur := by
  subst e; exact h

theorem tracks_clk_low (hw : Pins) (wf : hw.wellFormed) {c0 : Bool × Bool} {p : Port}
    {syms : List Sym} {c d : Bool} (h : Tracks hw c0 p syms (c, d)) :
    Tracks hw c0 (TM_CLK_LOW hw p) (syms ++ (classify (c, d) (false, d)).toList) (false, d) := by
  have hl : level hw (p.out &&& (0xFF ^^^ hw.TM_BIT_CLK)) = (false, d) := by
    rw [level_clk_low hw wf, h.1]
  have ht := tracks_writeOut hw h (p.out &&& (0xFF ^^^ hw.TM_BIT_CLK))
  rw [hl] at ht
  exact ht

theorem tracks_clk_high (hw : Pins) (wf : hw.wellFormed) {c0 : Bool × Bool} {p : Port}
    {syms : List Sym} {c d : Bool} (h : Tracks hw c0 p syms (c, d)) :
    Tracks hw c0 (TM_CLK_HIGH hw p) (syms ++ (classify (c, d) (true, d)).toList) (true, d) := by
  have hl : level hw (p.out ||| hw.TM_BIT_CLK) = (true, d) := by
    rw [level_clk_high hw wf, h.1]
  have ht := tracks_writeOut hw h (p.out ||| hw.TM_BIT_CLK)
  rw [hl] at ht
  exact ht

theorem tracks_dat_low (hw : Pins) (wf : hw.wellFormed) {c0 : Bool × Bool} {p : Port}
    {syms : List Sym} {c d : Bool} (h : Tracks hw c0 p syms (c, d)) :
    Tracks hw c0 (TM_DAT_LOW hw p) (syms ++ (classify (c, d) (c, false)).toList) (c, false) := by
  have hl : level hw (p.out &&& (0xFF ^^^ hw.TM_BIT_DAT)) = (c, false) := by
    rw [level_dat_low hw wf, h.1]
  have ht := tracks_writeOut hw h (p.out &&& (0xFF ^^^ hw.TM_BIT_DAT))
  rw [hl] at ht
  exact ht

theorem tracks_dat_high (hw : Pins) (wf : hw.wellFormed) {c0 : Bool × Bool} {p : Port}
    {syms : List Sym} {c d : Bool} (h : Tracks hw c0 p syms (c, d)) :
    Tracks hw c0 (TM_DAT_HIGH hw p) (syms ++ (classify (c, d) (c, true)).toList) (c, true) := by
  have hl : level hw (p.out ||| hw.TM_BIT_DAT) = (c, true) := by
    rw [level_dat_high hw wf, h.1]
  have ht := tracks_writeOut hw h (p.out ||| hw.TM_BIT_DAT)
  rw [hl] at ht
  exact ht

theorem classify_clk_falls (c d : Bool) : classify (c, d) (false, d) = none := by
  cases c <;> cases d <;> rfl

theorem classify_dat_clk_low (d e : Bool) : classify (false, d) (false, e) = none := by
  cases d <;> cases e <;> rfl

theorem classify_clk_rises (d : Bool) : classify (false, d) (true, d) = some (Sym.bit d) := by
  cases d <;> rfl

theorem land_one_ne_zero (b : Nat) : (b &&& 1 ≠ 0) ↔ b.testBit 0 = true :=
  TM1637.land_shift_ne_zero b 0

theorem tracks_clk_falls (hw : Pins) (wf : hw.wellFormed) {c0 : Bool × Bool} {p : Port}
    {syms : List Sym} {c d : Bool} (h : Tracks hw c0 p syms (c, d)) :
    Tracks hw c0 (TM_CLK_LOW hw p) syms (false, d) :=
  tracks_congr hw (tracks_clk_low hw wf h) (by rw [classify_clk_falls]; exact List.append_nil syms)

theorem tracks_dat_low_quiet (hw : Pins) (wf : hw.wellFormed) {c0 : Bool × Bool} {p : Port}
    {syms : List Sym} {d : Bool} (h : Tracks hw c0 p syms (false, d)) :
    Tracks hw c0 (TM_DAT_LOW hw p) syms (false, false) :=
  tracks_congr hw (tracks_dat_low hw wf h)
    (by rw [classify_dat_clk_low]; exact List.append_nil syms)

theorem tracks_dat_high_quiet (hw : Pins) (wf : hw.wellFormed) {c0 : Bool × Bool} {p : Port}
    {syms : List Sym} {d : Bool} (h : Tracks hw c0 p syms (false, d)) :
    Tracks hw c0 (TM_DAT_HIGH hw p) syms (false, true) :=
  tracks_congr hw (tracks_dat_high hw wf h)
    (by rw [classify_dat_clk_low]; exact List.append_nil syms)

theorem tracks_clk_rises (hw : Pins) (wf : hw.wellFormed) {c0 : Bool × Bool} {p : Port}
    {syms : List Sym} {d : Bool} (h : Tracks hw c0 p syms (false, d)) :
    Tracks hw c0 (TM_CLK_HIGH hw p) (syms ++ [Sym.bit d]) (true, d) :=
  tracks_congr hw (tracks_clk_high hw wf h) (by rw [classify_clk_rises]; rfl)

/-- One round of the loop of `send`: a rising clock edge with the low bit of `b`
on the data line, and no other event. -/
theorem tracks_send_bit (hw : Pins) (wf : hw.wellFormed) {c0 : Bool × Bool} {p : Port}
    {syms : List Sym} {c d : Bool} (h : Tracks hw c0 p syms (c, d)) (b : Nat) :
    Tracks hw c0
      (delay_us (TM_CLK_HIGH hw (delay_us
        (if b &&& 1 ≠ 0 then TM_DAT_HIGH hw (TM_CLK_LOW hw p)
          else TM_DAT_LOW hw (TM_CLK_LOW hw p)) 1)) 1)
      (syms ++ [Sym.bit (b.testBit 0)]) (true, b.testBit 0) := by
  have h1 := tracks_clk_falls hw wf h
  by_cases hb : b.testBit 0 = true
  · have hcond : b &&& 1 ≠ 0 := (land_one_ne_zero b).2 hb
    rw [if_pos hcond, hb]
    exact tracks_delay hw
      (tracks_clk_rises hw wf (tracks_delay hw (tracks_dat_high_quiet hw wf h1) 1)) 1
  · have hcond : ¬ (b &&& 1 ≠ 0) := fun hc => hb ((land_one_ne_zero b).1 hc)
    have hb2 : b.testBit 0 = false := by simpa using hb
    rw [if_neg hcond, hb2]
    exact tracks_delay hw
      (tracks_clk_rises hw wf (tracks_delay hw (tracks_dat_low_quiet hw wf h1) 1)) 1

theorem tracks_sendLoop (hw : Pins) (wf : hw.wellFormed) (c0 : Bool × Bool) :
    ∀ (i b : Nat) (p : Port) (syms : List Sym) (cur : Bool × Bool),
      Tracks hw c0 p syms cur →
      ∃ cur2, Tracks hw c0 (sendLoop hw i b p)
        (syms ++ (List.range i).map fun k => Sym.bit (b.testBit k)) cur2 := by
  intro i
  induction i with
  | zero =>
    intro b p syms cur h
    exact ⟨cur, tracks_congr hw h (by simp)⟩
  | succ i ih =>
    intro b p syms cur h
    obtain ⟨c, d⟩ := cur
    obtain ⟨cur2, h2⟩ := ih (b >>> 1) _ _ _ (tracks_send_bit hw wf h b)
    refine ⟨cur2, tracks_congr hw h2 ?_⟩
    rw [TM1637.range_map_succ, List.append_assoc]
    congr 1
    simp only [List.singleton_append, List.cons.injEq, true_and]
    apply List.map_congr_left
    intro k _
    rw [Nat.testBit_shiftRight, Nat.add_comm]

/-- The function `send(b)` shows the eight bits of `b`, least significant
first, and the acknowledge clock with the data line low, whatever the levels
it starts from. -/
theorem tracks_send (hw : Pins) (wf : hw.wellFormed) {c0 : Bool × Bool} {p : Port}
    {syms : List Sym} {cur : Bool × Bool} (h : Tracks hw c0 p syms cur) (b : Nat) :
    Tracks hw c0 (send hw p b) (syms ++ bitsLSB b ++ [Sym.bit false]) (true, false) := by
  obtain ⟨⟨c, d⟩, h1⟩ := tracks_sendLoop hw wf c0 8 b p syms cur h
  exact tracks_delay hw
    (tracks_clk_rises hw wf
      (tracks_delay hw (tracks_dat_low_quiet hw wf (tracks_clk_falls hw wf h1)) 1)) 1

theorem tracks_start (hw : Pins) (wf : hw.wellFormed) {c0 : Bool × Bool} {p : Port}
    {syms : List Sym} (h : Tracks hw c0 p syms (true, true)) :
    Tracks hw c0 (start hw p) (syms ++ [Sym.start]) (true, false) := by
  have h1 : Tracks hw c0 (TM_CLK_HIGH hw p) syms (true, true) :=
    tracks_congr hw (tracks_clk_high hw wf h) (List.append_nil syms)
  have h2 : Tracks hw c0 (TM_DAT_HIGH hw (TM_CLK_HIGH hw p)) syms (true, true) :=
    tracks_congr hw (tracks_dat_high hw wf h1) (List.append_nil syms)
  have h3 : Tracks hw c0 (TM_DAT_LOW hw (delay_us (TM_DAT_HIGH hw (TM_CLK_HIGH hw p)) 1))
      (syms ++ [Sym.start]) (true, false) :=
    tracks_dat_low hw wf (tracks_delay hw h2 1)
  exact tracks_delay hw h3 1

theorem tracks_stop (hw : Pins) (wf : hw.wellFormed) {c0 : Bool × Bool} {p : Port}
    {syms : List Sym} (h : Tracks hw c0 p syms (true, false)) :
    Tracks hw c0 (stop hw p) (syms ++ [Sym.bit false, Sym.stop]) (true, true) := by
  have h1 := tracks_clk_rises hw wf (tracks_delay hw (tracks_clk_falls hw wf h) 1)
  have h2 : Tracks hw c0 (TM_DAT_LOW hw (TM_CLK_HIGH hw (delay_us (TM_CLK_LOW hw p) 1)))
      (syms ++ [Sym.bit false]) (true, false) :=
    tracks_congr hw (tracks_dat_low hw wf h1) (List.append_nil _)
  have h3 := tracks_dat_high hw wf (tracks_delay hw h2 1)
  exact tracks_congr hw h3 (by simp [classify])

theorem tracks_send_cmd (hw : Pins) (wf : hw.wellFormed) {c0 : Bool × Bool} {p : Port}
    {syms : List Sym} (h : Tracks hw c0 p syms (true, true)) (cmd : Nat) :
    Tracks hw c0 (send_cmd hw p cmd)
      (syms ++ ([Sym.start] ++ bitsLSB cmd ++ [Sym.bit false, Sym.bit false, Sym.stop]))
      (true, true) := by
  have h1 := tracks_stop hw wf (tracks_send hw wf (tracks_start hw wf h) cmd)
  exact tracks_congr hw h1 (by simp)

theorem tracks_send_data (hw : Pins) (wf : hw.wellFormed) {c0 : Bool × Bool} {p : Port}
    {syms : List Sym} (h : Tracks hw c0 p syms (true, true)) (addr data : Nat) :
    Tracks hw c0 (send_data hw p addr data)
      (syms ++ ([Sym.start] ++ bitsLSB 0x44 ++ [Sym.bit false, Sym.bit false, Sym.stop] ++
        [Sym.start] ++ bitsLSB (0xC0 ||| addr) ++ [Sym.bit false] ++ bitsLSB data ++
        [Sym.bit false, Sym.bit false, Sym.stop]))
      (true, true) := by
  have h1 := tracks_send_cmd hw wf h (0x40 ||| 0x04)
  have h2 := tracks_stop hw wf
    (tracks_send hw wf (tracks_send hw wf (tracks_start hw wf h1) (0xC0 ||| addr)) data)
  have h3 := tracks_delay hw h2 1
  exact tracks_congr hw h3 (by simp)

theorem byteOf_bits (n : Nat) :
    ∀ b : Nat, byteOf ((List.range n).map fun k => Sym.bit (b.testBit k)) = b % 2 ^ n := by
  induction n with
  | zero => intro b; simp [byteOf, Nat.mod_one]
  | succ n ih =>
    intro b
    rw [TM1637.range_map_succ]
    have hshift : (List.range n).map (fun k => Sym.bit (b.testBit (k + 1))) =
        (List.range n).map (fun k => Sym.bit ((b / 2).testBit k)) := by
      apply List.map_congr_left
      intro k _
      rw [Nat.testBit_succ]
    have hlow : (if b.testBit 0 = true then 1 else 0) = b % 2 := by
      rw [Nat.testBit_zero]
      rcases Nat.mod_two_eq_zero_or_one b with h | h <;> simp [h]
    simp only [byteOf]
    rw [hshift, ih (b / 2), hlow, pow_succ', Nat.mod_mul]

theorem byteOf_bitsLSB (b : Nat) : byteOf (bitsLSB b) = b % 256 :=
  byteOf_bits 8 b

theorem sendLoop_ddr (hw : Pins) :
    ∀ (i b : Nat) (p : Port), (sendLoop hw i b p).ddr = p.ddr := by
  intro i
  induction i with
  | zero => intro b p; rfl
  | succ i ih =>
    intro b p
    simp only [sendLoop]
    rw [ih]
    split <;> rfl

theorem send_ddr (hw : Pins) (p : Port) (b : Nat) : (send hw p b).ddr = p.ddr := by
  show (sendLoop hw 8 b p).ddr = p.ddr
  exact sendLoop_ddr hw 8 b p

theorem trace_ends_stop_delay (hw : Pins) (q : Port) :
    (delay_us (TM_DAT_HIGH hw q) 1).trace.getLast? = some (PinEv.delay_us 1) ∧
      (delay_us (TM_DAT_HIGH hw q) 1).trace.dropLast.getLast? =
        some (PinEv.out (delay_us (TM_DAT_HIGH hw q) 1).out) := by
  simp [delay_us, TM_DAT_HIGH, writeOut]

theorem lor_pair_land_left (v m n : Nat) : (v ||| (m ||| n)) &&& m = m := by
  apply Nat.eq_of_testBit_eq
  intro i
  rw [Nat.testBit_and, Nat.testBit_or, Nat.testBit_or]
  cases v.testBit i <;> cases m.testBit i <;> cases n.testBit i <;> rfl

theorem lor_pair_land_right (v m n : Nat) : (v ||| (m ||| n)) &&& n = n := by
  apply Nat.eq_of_testBit_eq
  intro i
  rw [Nat.testBit_and, Nat.testBit_or, Nat.testBit_or]
  cases v.testBit i <;> cases m.testBit i <;> cases n.testBit i <;> rfl

theorem brightness_byte_range (b : Nat) :
    0x88 ≤ (0x88 ||| (b &&& 0x07)) ∧ (0x88 ||| (b &&& 0x07)) ≤ 0x8F := by
  have h := Nat.and_pow_two_sub_one_eq_mod b 3
  norm_num at h
  rw [h]
  have hlt : b % 8 < 8 := Nat.mod_lt _ (by decide)
  generalize b % 8 = x at hlt
  interval_cases x <;> decide

/-! ## The claims on the bus engine -/

/-- C12: for every byte `b`, whatever the port holds before, `send(b)` makes
exactly nine rising clock edges; the data level sampled at edge `k` (`k = 0..7`)
is bit `k` of `b`, least significant first, and at the ninth edge the data line
is low; no start, stop or glitch is seen, that is the data line changes only
while the clock is low; the direction register is left alone, so both lines
stay driven and none is read; and `b` is read back from the first eight
samples. -/
theorem send_waveform (hw : Pins) (wf : hw.wellFormed) (ddr out b : Nat) (hb : b < 256) :
    observe hw (level hw out) (send hw (powerOn ddr out) b).trace =
        bitsLSB b ++ [Sym.bit false] ∧
      (observe hw (level hw out) (send hw (powerOn ddr out) b).trace).length = 9 ∧
      (∀ sym ∈ observe hw (level hw out) (send hw (powerOn ddr out) b).trace,
        sym ≠ Sym.start ∧ sym ≠ Sym.stop ∧ sym ≠ Sym.glitch) ∧
      (send hw (powerOn ddr out) b).ddr = ddr ∧
      byteOf ((observe hw (level hw out) (send hw (powerOn ddr out) b).trace).take 8) = b := by
  have h := (tracks_send hw wf (tracks_powerOn hw ddr out) b).2.2
  rw [List.nil_append] at h
  refine ⟨h, ?_, ?_, send_ddr hw _ b, ?_⟩
  · rw [h]; simp [bitsLSB]
  · intro sym hsym
    rw [h] at hsym
    rcases List.mem_append.mp hsym with hm | hm
    · obtain ⟨k, _, hk⟩ := List.mem_map.mp hm
      subst hk
      exact ⟨by simp, by simp, by simp⟩
    · rw [List.mem_singleton] at hm
      subst hm
      exact ⟨by simp, by simp, by simp⟩
  · rw [h]
    have htake : (bitsLSB b ++ [Sym.bit false]).take 8 = bitsLSB b := by
      simp [bitsLSB]
    rw [htake, byteOf_bitsLSB]
    exact Nat.mod_eq_of_lt hb

theorem send_waveform_witness :
    (samplePins.wellFormed ∧ 0xA5 < 256) ∧
      observe samplePins (level samplePins 0x02) (send samplePins (powerOn 0x03 0x02) 0xA5).trace =
        [Sym.bit true, Sym.bit false, Sym.bit true, Sym.bit false, Sym.bit false, Sym.bit true,
          Sym.bit false, Sym.bit true, Sym.bit false] :=
  ⟨⟨by decide, by decide⟩,
    (send_waveform samplePins (by decide) 0x03 0x02 0xA5 (by decide)).1.trans (by decide)⟩

/-- C13: for every address `a` and data byte `d`, the trace of
`send_data(a, d)` started with both lines high shows exactly: a start, the bits
of 0x44 least significant first and the low acknowledge slot, the clock pulse of
`stop` with the data line low, a stop; then a second start, the bits of
`0xC0 | a` with a low acknowledge slot, the bits of `d` with a low acknowledge
slot, the clock pulse of `stop`, and the second stop. No other data change
happens while the clock is high. The trace ends with the write that releases
the data line, leaving both lines high, followed by one settle delay of 1 µs. -/
theorem send_data_waveform (hw : Pins) (wf : hw.wellFormed) (ddr out a d : Nat)
    (hidle : level hw out = (true, true)) :
    observe hw (true, true) (send_data hw (powerOn ddr out) a d).trace =
        [Sym.start] ++ bitsLSB 0x44 ++ [Sym.bit false, Sym.bit false, Sym.stop] ++
          [Sym.start] ++ bitsLSB (0xC0 ||| a) ++ [Sym.bit false] ++ bitsLSB d ++
          [Sym.bit false, Sym.bit false, Sym.stop] ∧
      (send_data hw (powerOn ddr out) a d).trace.getLast? = some (PinEv.delay_us 1) ∧
      (send_data hw (powerOn ddr out) a d).trace.dropLast.getLast? =
        some (PinEv.out (send_data hw (powerOn ddr out) a d).out) ∧
      level hw (send_data hw (powerOn ddr out) a d).out = (true, true) := by
  have h0 := tracks_powerOn hw ddr out
  rw [hidle] at h0
  have h := tracks_send_data hw wf h0 a d
  rw [List.nil_append] at h
  have htail := trace_ends_stop_delay hw
    (delay_us (TM_DAT_LOW hw (TM_CLK_HIGH hw (delay_us (TM_CLK_LOW hw
      (send hw (send hw (start hw (send_cmd hw (powerOn ddr out) (0x40 ||| 0x04)))
        (0xC0 ||| a)) d)) 1))) 1)
  exact ⟨h.2.2, htail.1, htail.2, h.1⟩

theorem send_data_waveform_witness :
    (samplePins.wellFormed ∧ level samplePins 0x03 = (true, true)) ∧
      observe samplePins (true, true) (send_data samplePins (powerOn 0x03 0x03) 2 0x4F).trace =
        [Sym.start] ++ bitsLSB 0x44 ++ [Sym.bit false, Sym.bit false, Sym.stop] ++
          [Sym.start] ++ bitsLSB (0xC0 ||| 2) ++ [Sym.bit false] ++ bitsLSB 0x4F ++
          [Sym.bit false, Sym.bit false, Sym.stop] :=
  ⟨⟨by decide, by decide⟩,
    (send_data_waveform samplePins (by decide) 0x03 0x03 2 0x4F (by decide)).1⟩

/-- C18 (as stated, refuted): from the reset state of the port (both registers
zero) `port_setup` makes both lines outputs and drives the clock high, but the
data bit of `TM_OUT` stays 0: the data line is driven low. -/
theorem port_setup_leaves_data_low :
    port_setup samplePins (powerOn 0 0) =
        Port.mk 0x03 0x01 [PinEv.ddr 0x03, PinEv.out 0x01] ∧
      level samplePins (port_setup samplePins (powerOn 0 0)).out = (true, false) ∧
      (port_setup samplePins (powerOn 0 0)).out &&& samplePins.TM_BIT_DAT = 0 := by
  decide

/-- C18 (amended): for every initial content of the direction and output
registers, after `port_setup` both the clock line and the data line are
configured as outputs and the clock line is driven high; the data bit of the
output register is not written, so the data line is driven at the level its
output bit had before. The function makes one write to `TM_DDR` and one to
`TM_OUT`. -/
theorem port_setup_effect (hw : Pins) (wf : hw.wellFormed) (ddr out : Nat) :
    (port_setup hw (powerOn ddr out)).ddr &&& hw.TM_BIT_CLK = hw.TM_BIT_CLK ∧
      (port_setup hw (powerOn ddr out)).ddr &&& hw.TM_BIT_DAT = hw.TM_BIT_DAT ∧
      level hw (port_setup hw (powerOn ddr out)).out = (true, (level hw out).2) ∧
      (port_setup hw (powerOn ddr out)).trace =
        [PinEv.ddr (ddr ||| (hw.TM_BIT_CLK ||| hw.TM_BIT_DAT)), PinEv.out (out ||| hw.TM_BIT_CLK)] := by
  refine ⟨lor_pair_land_left ddr _ _, lor_pair_land_right ddr _ _, ?_, rfl⟩
  exact level_clk_high hw wf out

theorem port_setup_effect_witness :
    samplePins.wellFormed ∧
      level samplePins (port_setup samplePins (powerOn 0x00 0x02)).out =
        (true, (level samplePins 0x02).2) ∧
      (level samplePins 0x02).2 = true :=
  ⟨by decide, (port_setup_effect samplePins (by decide) 0x00 0x02).2.2.1, by decide⟩

end Wire

/-- C17: for every brightness value `b`, `setBrightness(b)` makes exactly one
`send_cmd` call, with the byte `0x88 | (b & 0x07)`, which lies in 0x88..0x8F;
`b` and `b mod 8` give the same bus traffic and the dot mask is not changed. On
the pins, from idle lines, that call is one start, the eight bits of the byte
with the acknowledge slot, the clock pulse of `stop`, and one stop. -/
theorem setBrightness_command (s : State) (b : Nat) (hw : Wire.Pins) (wf : hw.wellFormed)
    (ddr out : Nat) (hidle : Wire.level hw out = (true, true)) :
    setBrightness s b = emit s [BusOp.cmd (0x88 ||| (b &&& 0x07))] ∧
      (0x88 ≤ (0x88 ||| (b &&& 0x07)) ∧ (0x88 ||| (b &&& 0x07)) ≤ 0x8F) ∧
      setBrightness s (b % 8) = setBrightness s b ∧
      (setBrightness s b).dotMask = s.dotMask ∧
      Wire.observe hw (true, true)
          (Wire.send_cmd hw (Wire.powerOn ddr out) (0x88 ||| (b &&& 0x07))).trace =
        [Wire.Sym.start] ++ Wire.bitsLSB (0x88 ||| (b &&& 0x07)) ++
          [Wire.Sym.bit false, Wire.Sym.bit false, Wire.Sym.stop] := by
  have hmod : b % 8 &&& 0x07 = b &&& 0x07 := by
    have h1 := Nat.and_pow_two_sub_one_eq_mod b 3
    have h2 := Nat.and_pow_two_sub_one_eq_mod (b % 8) 3
    norm_num at h1 h2
    rw [h1, h2]
  have h0 := Wire.tracks_powerOn hw ddr out
  rw [hidle] at h0
  have hpins := (Wire.tracks_send_cmd hw wf h0 (0x88 ||| (b &&& 0x07))).2.2
  rw [List.nil_append] at hpins
  refine ⟨rfl, Wire.brightness_byte_range b, ?_, rfl, hpins⟩
  unfold setBrightness
  rw [hmod]

theorem setBrightness_command_witness :
    (Wire.samplePins.wellFormed ∧ Wire.level Wire.samplePins 0x03 = (true, true)) ∧
      setBrightness (fresh 5) 10 = emit (fresh 5) [BusOp.cmd 0x8A] ∧
      setBrightness (fresh 5) (10 % 8) = setBrightness (fresh 5) 10 :=
  ⟨⟨by decide, by decide⟩,
    (setBrightness_command (fresh 5) 10 Wire.samplePins (by decide) 0x03 0x03 (by decide)).1.trans
      (by decide),
    (setBrightness_command (fresh 5) 10 Wire.samplePins (by decide) 0x03 0x03 (by decide)).2.2.1⟩

end TM1637
